import Mathlib

/-!
Verification of `bin/harmonise.py` (digital-land/brownfield-sites-data).

The Python script normalises CSV values by schema type: integers, exact
decimals (via `decimal.Decimal`), dates (via `datetime.strptime` over a
fixed pattern list), URIs, organisation URIs (via an index built from a
reference table and a patch table), and a GeoX/GeoY geometry post-pass.

This file gives a shallow embedding of those functions and proves/refutes
the specification claims about them.  External collaborators are
parameters: the pyproj OSGB->WGS84 transform is an abstract function
argument, and `validators.url` is an abstract predicate argument.
-/

namespace Harmonise

/-! ## Decimal digit strings

Python renders integers and `Decimal` coefficients as base-10 digit
strings.  We model digit characters by explicit 10-way case analysis so
that character facts reduce by `decide`. -/

/-- The decimal digit character for `n % 10`. -/
def digitChar (n : Nat) : Char :=
  match n % 10 with
  | 0 => '0' | 1 => '1' | 2 => '2' | 3 => '3' | 4 => '4'
  | 5 => '5' | 6 => '6' | 7 => '7' | 8 => '8' | _ => '9'

/-- Digit rendering with explicit fuel (structural, so it computes inside
the kernel).  The fuel bounds the recursion depth, which is the digit
count of `n`; any `fuel > n ≥ digits(n) - 1` is exact. -/
def natDigitsF : Nat → Nat → List Char
  | 0, _ => []
  | fuel + 1, n =>
    if n < 10 then [digitChar n]
    else natDigitsF fuel (n / 10) ++ [digitChar n]

/-- Base-10 digit characters of `n`, most significant first (Python `str(n)`
for a nonnegative `n`). -/
def natDigits (n : Nat) : List Char := natDigitsF (n + 1) n

/-- Numeric value of one digit character. -/
def digitNat (c : Char) : Nat := c.toNat - 48

/-- Numeric value of a digit-character list (leading zeros allowed). -/
def digitVal (cs : List Char) : Nat :=
  cs.foldl (fun a c => a * 10 + digitNat c) 0

/-- A decimal digit character. -/
def isDigitChar (c : Char) : Bool := c.isDigit

/-- Python `str(n)` for an integer `n`, as characters. -/
def intDigits (n : Int) : List Char :=
  (if n < 0 then ['-'] else []) ++ natDigits n.natAbs

/-- Python `str(int(...))` used by `format_integer`. -/
def format_integer (n : Int) : String := String.mk (intDigits n)

/-! ## The `decimal.Decimal` data model

Python `Decimal` values are sign / coefficient-digits / exponent triples,
plus the specials `NaN`, `sNaN` and infinities.  The constructor strips
leading zeros from the coefficient, so a `Nat` coefficient is faithful:
the stored digit count always equals the digit count of the `Nat`. -/

/-- A Python `decimal.Decimal` value. -/
inductive Dec where
  | finite (neg : Bool) (coeff : Nat) (exp : Int)
  | nan
  | snan
  | inf (neg : Bool)
deriving DecidableEq, Repr

/-- Number of base-10 digits of the stored coefficient. -/
def digitCount (n : Nat) : Nat := (natDigits n).length

/-- Whitespace as stripped by Python's `str.strip` / `Decimal` constructor
(ASCII portion; the source data is ASCII CSV). -/
def isPyWs (c : Char) : Bool := c.isWhitespace

/-- Strip whitespace from both ends of a character list. -/
def stripWs (cs : List Char) : List Char :=
  ((cs.dropWhile isPyWs).reverse.dropWhile isPyWs).reverse

/-- PEP 515 underscore rule: every `_` sits between two digits. -/
def underscoresOkAux : Char → List Char → Bool
  | _, [] => true
  | p, c :: rest =>
    if c = '_' then
      p.isDigit && (match rest with | r :: _ => r.isDigit | [] => false)
        && underscoresOkAux '_' rest
    else underscoresOkAux c rest

/-- PEP 515 underscore rule for a whole literal. -/
def underscoresOk : List Char → Bool
  | [] => true
  | c :: rest => if c = '_' then false else underscoresOkAux c rest

/-- Case-insensitive literal-prefix test (`re.IGNORECASE`). -/
def ciPrefix : List Char → List Char → Bool
  | [], _ => true
  | _ :: _, [] => false
  | p :: ps, c :: cs => (c.toLower == p) && ciPrefix ps cs

/-- Grammar of the `Decimal` constructor after sign extraction:
`digits [. digits] [E [sign] digits]`, `Inf`/`Infinity`, or
`[s]NaN digits*`, anchored at both ends (CPython `_pydecimal` regex). -/
def parseDecBody (neg : Bool) (cs : List Char) : Option Dec :=
  if ciPrefix ['n', 'a', 'n'] cs && (cs.drop 3).all isDigitChar then
    some Dec.nan
  else if ciPrefix ['s', 'n', 'a', 'n'] cs && (cs.drop 4).all isDigitChar then
    some Dec.snan
  else if ciPrefix ['i', 'n', 'f', 'i', 'n', 'i', 't', 'y'] cs && cs.length == 8 then
    some (Dec.inf neg)
  else if ciPrefix ['i', 'n', 'f'] cs && cs.length == 3 then
    some (Dec.inf neg)
  else
    let ipart := cs.takeWhile isDigitChar
    let rest := cs.dropWhile isDigitChar
    let hasDot := rest.head? = some '.'
    let fpart := if hasDot then rest.tail.takeWhile isDigitChar else []
    let rest' := if hasDot then rest.tail.dropWhile isDigitChar else rest
    if ipart.length + fpart.length = 0 then none
    else if rest' = [] then
      some (Dec.finite neg (digitVal (ipart ++ fpart)) (-(fpart.length : Int)))
    else if rest'.head? = some 'e' ∨ rest'.head? = some 'E' then
      let r := rest'.tail
      let esign := r.head? = some '-' ∨ r.head? = some '+'
      let ds := if esign then r.tail else r
      if ds ≠ [] ∧ ds.all isDigitChar then
        let ev : Int := (if r.head? = some '-' then -1 else 1) * (digitVal ds : Int)
        some (Dec.finite neg (digitVal (ipart ++ fpart)) (ev - (fpart.length : Int)))
      else none
    else none

/-- Optional-sign handling in front of the numeric grammar. -/
def parseDecCore (cs : List Char) : Option Dec :=
  if cs.head? = some '-' then parseDecBody true cs.tail
  else if cs.head? = some '+' then parseDecBody false cs.tail
  else parseDecBody false cs

/-- The `Decimal(value)` string constructor: strip surrounding whitespace,
validate/remove PEP 515 underscores, take an optional sign, then match the
anchored numeric grammar.  `none` models the raised `InvalidOperation`. -/
def parseDec (s : String) : Option Dec :=
  if underscoresOk (stripWs s.toList) then
    parseDecCore ((stripWs s.toList).filter (fun c => c ≠ '_'))
  else none

/-- Trailing-zero stripping with explicit fuel (structural); the number
of divisions is at most the digit count of `c`, so fuel `c` is exact. -/
def stripZerosF : Nat → Nat → Int → Nat × Int
  | 0, c, e => (c, e)
  | fuel + 1, c, e =>
    if c % 10 = 0 ∧ c ≠ 0 then stripZerosF fuel (c / 10) (e + 1) else (c, e)

/-- Strip trailing zero digits off a coefficient, bumping the exponent
(the loop inside `Decimal.normalize` for a nonzero coefficient). -/
def stripZeros (c : Nat) (e : Int) : Nat × Int := stripZerosF c c e

/-- `Decimal.normalize()`: specials pass through; zero collapses to
exponent 0; otherwise trailing zeros are stripped.  (The context-precision
rounding inside `normalize` never fires here: every caller hands it a
coefficient of at most 28 digits, the default context precision.) -/
def normalizeDec : Dec → Dec
  | Dec.finite neg c e =>
    if c = 0 then Dec.finite neg 0 0
    else
      let p := stripZeros c e
      Dec.finite neg p.1 p.2
  | d => d

/-- `Decimal.quantize` to exponent `target` under the default context:
`ROUND_HALF_EVEN`, precision 28, `InvalidOperation` (modelled as
`Except.error`) if the result needs more than 28 digits, on an infinity,
or on a signaling NaN.  This is what `round(Decimal(v), 6)` calls. -/
def quantizeHalfEven (d : Dec) (target : Int) : Except Unit Dec :=
  match d with
  | Dec.nan => Except.ok Dec.nan
  | Dec.snan => Except.error ()
  | Dec.inf _ => Except.error ()
  | Dec.finite neg c e =>
    if target ≤ e then
      let c' := c * 10 ^ (e - target).toNat
      -- more than 28 digits iff `c' ≥ 10^28`
      if 10 ^ 28 ≤ c' then Except.error () else Except.ok (Dec.finite neg c' target)
    else
      let k := (target - e).toNat
      let q := c / 10 ^ k
      let r := c % 10 ^ k
      let h := 5 * 10 ^ (k - 1)
      let q' := if h < r ∨ (r = h ∧ q % 2 = 1) then q + 1 else q
      if 10 ^ 28 ≤ q' then Except.error () else Except.ok (Dec.finite neg q' target)

/-- The unsigned part of `str(Decimal)` for a finite value: positional
when the exponent is ≤ 0 and the adjusted exponent is > -7, scientific
notation otherwise. -/
def decBody (c : Nat) (e : Int) : List Char :=
  if e ≤ 0 ∧ -6 < e + ((natDigits c).length : Int) then
    if e = 0 then natDigits c
    else if 0 < e + ((natDigits c).length : Int) then
      (natDigits c).take (e + ((natDigits c).length : Int)).toNat
        ++ '.' :: (natDigits c).drop (e + ((natDigits c).length : Int)).toNat
    else
      '0' :: '.' :: (List.replicate (-(e + ((natDigits c).length : Int))).toNat '0'
        ++ natDigits c)
  else
    (if (natDigits c).length = 1 then natDigits c
     else (natDigits c).take 1 ++ '.' :: (natDigits c).drop 1) ++
      'E' :: (if e + ((natDigits c).length : Int) - 1 < 0 then '-' else '+')
        :: natDigits (e + ((natDigits c).length : Int) - 1).natAbs

/-- Python `str(Decimal)` — the General Decimal Arithmetic
"to-scientific-string" conversion. -/
def decDigitsStr : Dec → List Char
  | Dec.nan => ['N', 'a', 'N']
  | Dec.snan => ['s', 'N', 'a', 'N']
  | Dec.inf neg => (if neg then ['-'] else []) ++ ['I', 'n', 'f', 'i', 'n', 'i', 't', 'y']
  | Dec.finite neg c e => (if neg then ['-'] else []) ++ decBody c e

/-- `str(d)` as a Lean string. -/
def decStr (d : Dec) : String := String.mk (decDigitsStr d)

/-- `format_decimal(value, precision=6)` =
`str(round(Decimal(value), precision).normalize())`.  Its `precision`
default is always used: `normalise_decimal` never forwards the field's
declared precision.  Errors model uncaught `InvalidOperation`. -/
def format_decimal (d : Dec) : Except Unit String :=
  (quantizeHalfEven d (-6)).map (fun q => decStr (normalizeDec q))

/-- One issue-log record (`field`, `datatype`, `value`); the row number is
appended by the CSV log writer from the pipeline's row counter. -/
structure Issue where
  field : String
  datatype : String
  value : String
deriving DecidableEq, Repr

/-- Optional sign, then a non-empty digit run (the core of `int(value)`:
surrounding whitespace and PEP 515 underscores are handled by `pyInt`;
`none` models `ValueError`). -/
def pyIntCore (cs : List Char) : Option Int :=
  if cs.head? = some '-' ∨ cs.head? = some '+' then
    if cs.tail ≠ [] ∧ cs.tail.all isDigitChar then
      some ((if cs.head? = some '-' then -1 else 1) * (digitVal cs.tail : Int))
    else none
  else if cs ≠ [] ∧ cs.all isDigitChar then some (digitVal cs : Int)
  else none

def pyInt (s : String) : Option Int :=
  if underscoresOk (stripWs s.toList) then
    pyIntCore ((stripWs s.toList).filter (fun c => c ≠ '_'))
  else none

/-- `normalise_integer.regex.sub("", value, 1)` for `\.0+$`: remove a
trailing run of zeros together with the dot right before it.  (At most one
such match can exist, so the count-1 substitution equals this.) -/
def stripDotZeros (s : String) : String :=
  let cs := s.toList
  let rz := cs.reverse.takeWhile (fun c => c = '0')
  if 0 < rz.length ∧ (cs.reverse.drop rz.length).head? = some '.' then
    String.mk (cs.take (cs.length - rz.length - 1))
  else s

/-- `normalise_integer(field, value)`: strip a trailing `.0+`, try
`int(...)`; on failure log the *stripped* value under datatype
"integer" and return the empty string. -/
def normalise_integer (field value : String) : String × List Issue :=
  let value := stripDotZeros value
  match pyInt value with
  | none => ("", [⟨field, "integer", value⟩])
  | some n => (format_integer n, [])

/-- `normalise_decimal(field, value, precision)`: only `Decimal(value)` is
inside the `try`; the `precision` argument is received but never passed on,
and `format_decimal` runs outside the `try`, so its `InvalidOperation`
(huge magnitudes, infinities, signaling NaN) escapes. -/
def normalise_decimal (field value : String) (precision : Nat) : Except Unit (String × List Issue) :=
  match parseDec value with
  | none => Except.ok ("", [⟨field, "decimal", value⟩])
  | some d => (format_decimal d).map (fun w => (w, []))

/-! ## Geometry

`normalise_geometry` works on the `GeoX`/`GeoY` entries of the output row.
The pyproj transform is an abstract parameter `t`; its result models the
Python float pair converted back through `Decimal(float)` (exact), i.e.
`t geox geoy = (lat, lon)` as `Dec` values. -/

/-- The two geometry fields of a row (`row.get("GeoX", "")` and
`row.get("GeoY", "")`; a missing key reads as the empty string). -/
structure GeoRow where
  geoX : String
  geoY : String
deriving DecidableEq, Repr

/-- The signed value of a finite `Decimal` scaled so comparisons against
a bound `a / b` become integer comparisons: `d < a/b` iff
`scaledLt d a b`.  For exponent `e ≥ 0` this compares
`sign·c·10^e·b` with `a`; for `e < 0` it compares `sign·c·b` with
`a·10^(-e)`. -/
def scaledLt (neg : Bool) (c : Nat) (e : Int) (a : Int) (b : Nat) : Bool :=
  let s : Int := (if neg then -1 else 1) * (c : Int)
  if 0 ≤ e then s * 10 ^ e.toNat * b < a
  else s * b < a * 10 ^ (-e).toNat

/-- Compare a `Decimal` against the exactly representable bound `a / b`
(`b > 0`); `none` models the `InvalidOperation` raised by comparing a
(signaling or quiet) NaN. -/
def decLtFrac (d : Dec) (a : Int) (b : Nat) : Option Bool :=
  match d with
  | Dec.nan => none
  | Dec.snan => none
  | Dec.inf neg => some neg
  | Dec.finite neg c e => some (scaledLt neg c e a b)

/-- Equality of a finite `Decimal` with `a / b` under the same scaling. -/
def scaledEq (neg : Bool) (c : Nat) (e : Int) (a : Int) (b : Nat) : Bool :=
  let s : Int := (if neg then -1 else 1) * (c : Int)
  if 0 ≤ e then s * 10 ^ e.toNat * b = a else s * b = a * 10 ^ (-e).toNat

/-- `a / b < d`; `none` on NaN. -/
def decGtFrac (d : Dec) (a : Int) (b : Nat) : Option Bool :=
  match d with
  | Dec.nan => none
  | Dec.snan => none
  | Dec.inf neg => some (!neg)
  | Dec.finite neg c e =>
    some (!(scaledLt neg c e a b) && !(scaledEq neg c e a b))

/-- `within_england(geox, geoy)`:
`geoy > 49.5 and geoy < 56.0 and geox > -7.0 and geox < 2`.  The bounds
are exactly representable floats, and Python compares `Decimal` with
`float` exactly.  `none` models the exception on a NaN operand. -/
def within_england (geox geoy : Dec) : Option Bool := do
  let b1 ← decGtFrac geoy 99 2
  if !b1 then return false
  let b2 ← decLtFrac geoy 56 1
  if !b2 then return false
  let b3 ← decGtFrac geox (-7) 1
  if !b3 then return false
  decLtFrac geox 2 1

/-- Render an accepted (lon, lat) pair back into the row through
`format_decimal` (whose `InvalidOperation` would escape). -/
def renderPair (lon lat : Dec) : Except Unit (GeoRow × List Issue) :=
  match format_decimal lon with
  | Except.error e => Except.error e
  | Except.ok x =>
    match format_decimal lat with
    | Except.error e => Except.error e
    | Except.ok y => Except.ok (⟨x, y⟩, [])

/-- Branch on a `within_england` test: a NaN comparison is an uncaught
exception. -/
def withinT (w : Option Bool) (yes no : Except Unit (GeoRow × List Issue)) :
    Except Unit (GeoRow × List Issue) :=
  match w with
  | none => Except.error ()
  | some true => yes
  | some false => no

/-- `normalise_geometry(row)`.  `t` is the OSGB->WGS84 transform
(`osgb_to_wgs84.transform`), returning `(lat, lon)`.  Failures of
`Decimal(...)` on a non-blank unparseable value, or NaN comparisons, are
uncaught exceptions (`Except.error`): the `isinstance(geox, str)` guard in
the source is dead code because `Decimal` raises instead of returning a
string.  In the all-tests-fail branch the issue value joins the
already-blanked fields. -/
def normalise_geometry (t : Dec → Dec → Dec × Dec) (row : GeoRow) :
    Except Unit (GeoRow × List Issue) :=
  if row.geoX = "" ∨ row.geoY = "" then Except.ok (row, [])
  else
    match parseDec row.geoX, parseDec row.geoY with
    | some geox, some geoy =>
      -- `row["GeoX"] = ""; row["GeoY"] = ""` happens before the tests
      let blanked : GeoRow := ⟨"", ""⟩
      withinT (within_england geox geoy) (renderPair geox geoy)
        (withinT (within_england geoy geox) (renderPair geoy geox)
          (withinT (within_england (t geox geoy).2 (t geox geoy).1)
            (renderPair (t geox geoy).2 (t geox geoy).1)
            (withinT (within_england (t geoy geox).2 (t geoy geox).1)
              (renderPair (t geoy geox).2 (t geoy geox).1)
              (Except.ok (blanked,
                [⟨"GeoX,GeoY", "OSGB", blanked.geoX ++ "," ++ blanked.geoY⟩])))))
    | _, _ => Except.error ()

/-! ## Organisation URI index and resolver -/

/-- ASCII lower-casing as done by `str.lower()` on this data. -/
def pyLowerChars (cs : List Char) : List Char := cs.map Char.toLower

/-- `str.lower()`. -/
def pyLower (s : String) : String := String.mk (pyLowerChars s.toList)

/-- `lower_uri(value)` = `"".join(value.split()).lower()`: remove every
whitespace character, then lower-case. -/
def lower_uri (s : String) : String :=
  String.mk (pyLowerChars (s.toList.filter (fun c => !isPyWs c)))

/-- `"".join(value.split())` as used by `normalise_uri` (no lowering). -/
def collapseWs (s : String) : String :=
  String.mk (s.toList.filter (fun c => !isPyWs c))

/-- Drop everything up to and including the last `/` of a segment. -/
def dropThroughSlash (cs : List Char) : List Char :=
  (cs.reverse.takeWhile (fun c => c ≠ '/')).reverse

/-- Split at newline characters (kept out of the regex match: `.` in
`re.sub(r".*/", "", s)` does not match a newline). -/
def splitNl (cs : List Char) : List (List Char) :=
  match cs with
  | [] => [[]]
  | '\n' :: rest => [] :: splitNl rest
  | c :: rest =>
    match splitNl rest with
    | [] => [[c]]
    | l :: ls => (c :: l) :: ls

/-- `end_of_uri(value)` = `re.sub(r".*/", "", value.rstrip("/").lower())`:
strip trailing slashes, lower-case, then in each newline-free segment drop
everything through the last slash. -/
def end_of_uri (s : String) : String :=
  let u := pyLowerChars ((s.toList.reverse.dropWhile (fun c => c = '/')).reverse)
  String.mk (String.intercalate "\n" ((splitNl u).map (fun l => String.mk (dropThroughSlash l))) |>.toList)

/-- One parsed row of `var/cache/organisation.csv` (the reference table
has at least these columns, so the `"opendatacommunities" in row` key test
in the source is always true for `csv.DictReader` rows). -/
structure OrgRow where
  organisation : String
  opendatacommunities : String
  statgeo : String
deriving DecidableEq, Repr

/-- One parsed row of `patch/organisation.csv`. -/
structure PatchRow where
  value : String
  organisation : String
deriving DecidableEq, Repr

/-- Python `pat in s` substring test. -/
def containsSub (pat : List Char) : List Char → Bool
  | [] => pat.isEmpty
  | c :: rest => pat.isPrefixOf (c :: rest) || containsSub pat rest

/-- `str.replace` with explicit fuel (structural); every step consumes at
least one character, so fuel = input length is exact. -/
def replaceAllF (p : Char) (ps rep : List Char) : Nat → List Char → List Char
  | _, [] => []
  | 0, l => l
  | fuel + 1, c :: rest =>
    if (p :: ps).isPrefixOf (c :: rest) then
      rep ++ replaceAllF p ps rep fuel (rest.drop ps.length)
    else c :: replaceAllF p ps rep fuel rest

/-- Python `s.replace(pat, rep)` (left-to-right, non-overlapping); the
source only uses a non-empty pattern. -/
def replaceAll (p : Char) (ps rep l : List Char) : List Char :=
  replaceAllF p ps rep l.length l

/-- The dictionary writes of one reference row, *most recent first* (the
index is an insertion list looked up front-first, so prepending later
writes models `dict` overwrite). -/
def refEntries (r : OrgRow) : List (String × String) :=
  let uri := pyLower r.opendatacommunities
  let base := [(pyLower r.statgeo, uri), (end_of_uri uri, uri), (uri, uri)]
  if containsSub "local-authority-eng".toList r.organisation.toList then
    let dl := "https://digital-land.github.io/organisation/" ++ r.organisation ++ "/"
    let dl := String.mk (replaceAll '-' "eng:".toList "-eng/".toList (pyLower dl).toList)
    (dl, uri) :: base
  else base

/-- The reference-table pass of `load_organisations`: each row's writes
are laid on top of the index built so far. -/
def loadRefs : List OrgRow → List (String × String) → List (String × String)
  | [], idx => idx
  | r :: rs, idx => loadRefs rs (refEntries r ++ idx)

/-- The `organisation` dict keyed by organisation id (later rows win). -/
def orgTable : List OrgRow → List (String × OrgRow) → List (String × OrgRow)
  | [], acc => acc
  | r :: rs, acc => orgTable rs ((r.organisation, r) :: acc)

/-- The patch-table pass: a blank organisation id is skipped; a non-blank
id missing from the reference table raises `KeyError` (`Except.error`);
otherwise the patch's collapsed lower-cased value maps to that
organisation's *raw* `opendatacommunities` string. -/
def loadPatches (org : List (String × OrgRow)) :
    List PatchRow → List (String × String) → Except Unit (List (String × String))
  | [], idx => Except.ok idx
  | p :: ps, idx =>
    let value := lower_uri p.value
    if p.organisation = "" then loadPatches org ps idx
    else
      match List.lookup p.organisation org with
      | none => Except.error ()
      | some r => loadPatches org ps ((value, r.opendatacommunities) :: idx)

/-- `load_organisations()` over already-parsed reference and patch rows. -/
def load_organisations (refs : List OrgRow) (patches : List PatchRow) :
    Except Unit (List (String × String)) :=
  loadPatches (orgTable refs []) patches (loadRefs refs [])

/-- `normalise_organisation_uri(field, fieldvalue)` against a built index:
exact hit on the collapsed lower-cased value, else on its end segment,
else log kind "opendatacommunities-uri" (with the value as passed in) and
return the empty string. -/
def normalise_organisation_uri (idx : List (String × String)) (field fieldvalue : String) :
    String × List Issue :=
  let value := lower_uri fieldvalue
  match List.lookup value idx with
  | some uri => (uri, [])
  | none =>
    match List.lookup (end_of_uri value) idx with
    | some uri => (uri, [])
    | none => ("", [⟨field, "opendatacommunities-uri", fieldvalue⟩])

/-- `normalise_uri(field, value)`: collapse all whitespace, validate with
the external `validators.url` (abstract parameter `urlValid`); on failure
log kind "uri" with the *uncollapsed* value. -/
def normalise_uri (urlValid : String → Bool) (field value : String) : String × List Issue :=
  let uri := collapseWs value
  if urlValid uri then (uri, [])
  else ("", [⟨field, "uri", value⟩])

/-! ## Dates: a model of `datetime.strptime` for the source's patterns

CPython `_strptime` compiles each format to a regex (with `IGNORECASE`)
whose directives are ordered alternations of character classes — e.g.
`%d` is `3[01]|[12]\d|0[1-9]|[1-9]` — matched with backtracking and
anchored to consume the whole string; runs of whitespace in the format
match `\s+`.  The captured fields then go through the `datetime`
constructor, which validates ranges. -/

/-- A compiled format token: a case-insensitive literal character, a run
of whitespace, or a directive. -/
inductive Tok where
  | lit (c : Char)
  | ws
  | dir (k : Char)
deriving DecidableEq, Repr

/-- Character classes used by the directive regexes. -/
def chIs (a : Char) (c : Char) : Bool := c = a
/-- Character range class. -/
def chRange (lo hi : Char) (c : Char) : Bool := lo ≤ c ∧ c ≤ hi

/-- Month-name alternatives for `%b` (C locale, matched lower-cased). -/
def monthAbbrevs : List (List Char) :=
  ["jan", "feb", "mar", "apr", "may", "jun", "jul", "aug", "sep", "oct", "nov", "dec"].map
    String.toList

/-- Month-name alternatives for `%B`, longest first as `_strptime` sorts
them. -/
def monthNamesByLen : List (List Char) :=
  ["september", "november", "december", "february", "january", "october",
   "august", "march", "april", "july", "june", "may"].map String.toList

/-- Full month names in calendar order (for index lookup). -/
def monthNames : List (List Char) :=
  ["january", "february", "march", "april", "may", "june", "july",
   "august", "september", "october", "november", "december"].map String.toList

/-- The ordered regex alternatives of each directive, each alternative a
sequence of character predicates. -/
def dirAlts (k : Char) : List (List (Char → Bool)) :=
  match k with
  | 'Y' => [[Char.isDigit, Char.isDigit, Char.isDigit, Char.isDigit]]
  | 'y' => [[Char.isDigit, Char.isDigit]]
  | 'm' => [[chIs '1', chRange '0' '2'], [chIs '0', chRange '1' '9'], [chRange '1' '9']]
  | 'd' => [[chIs '3', chRange '0' '1'], [chRange '1' '2', Char.isDigit],
            [chIs '0', chRange '1' '9'], [chRange '1' '9']]
  | 'H' => [[chIs '2', chRange '0' '3'], [chRange '0' '1', Char.isDigit], [Char.isDigit]]
  | 'M' => [[chRange '0' '5', Char.isDigit], [Char.isDigit]]
  | 'S' => [[chIs '6', chRange '0' '1'], [chRange '0' '5', Char.isDigit], [Char.isDigit]]
  | 'b' => monthAbbrevs.map (fun w => w.map (fun a c => c.toLower = a))
  | 'B' => monthNamesByLen.map (fun w => w.map (fun a c => c.toLower = a))
  | _ => []

/-- Try to consume one alternative: each predicate eats one character.
Returns the consumed characters and the remainder. -/
def consumeAlt : List (Char → Bool) → List Char → Option (List Char × List Char)
  | [], xs => some ([], xs)
  | _ :: _, [] => none
  | p :: ps, x :: xs =>
    if p x then (consumeAlt ps xs).map (fun q => (x :: q.1, q.2)) else none

mutual

/-- Backtracking matcher for a token list against an input, anchored at
both ends; returns directive captures in match order.  The fuel bounds
the nesting depth of the three mutually recursive functions, which is at
most `14 * (#tokens) + #input + 2` (one level per literal token, at most
13 levels per directive token — its ≤ 12 alternatives plus the step into
the rest — and one level per whitespace character); `matchFuel` exceeds
it, so the fuel never runs out. -/
def matchToksF : Nat → List Tok → List Char → Option (List (Char × List Char))
  | 0, _, _ => none
  | _ + 1, [], xs => if xs.isEmpty then some [] else none
  | fuel + 1, Tok.lit c :: ts, xs =>
    match xs with
    | [] => none
    | x :: rest => if x.toLower = c.toLower then matchToksF fuel ts rest else none
  | fuel + 1, Tok.ws :: ts, xs =>
    match xs with
    | [] => none
    | x :: rest => if isPyWs x then matchWsF fuel ts rest else none
  | fuel + 1, Tok.dir k :: ts, xs => matchAltsF fuel k (dirAlts k) ts xs

/-- Greedy `\s+` continuation: after one whitespace character, keep
eating whitespace as long as the rest fails to match (regex greediness
with backtracking accepts exactly the same strings). -/
def matchWsF : Nat → List Tok → List Char → Option (List (Char × List Char))
  | 0, _, _ => none
  | fuel + 1, ts, xs =>
    match xs with
    | x :: rest =>
      if isPyWs x then
        match matchWsF fuel ts rest with
        | some r => some r
        | none => matchToksF fuel ts xs
      else matchToksF fuel ts xs
    | [] => matchToksF fuel ts []

/-- Try each alternative of a directive in regex order; on a consuming
match, succeed only if the rest of the tokens match the remainder,
otherwise backtrack to the next alternative. -/
def matchAltsF : Nat → Char → List (List (Char → Bool)) → List Tok → List Char →
    Option (List (Char × List Char))
  | 0, _, _, _, _ => none
  | _ + 1, _, [], _, _ => none
  | fuel + 1, k, a :: as, ts, xs =>
    match consumeAlt a xs with
    | none => matchAltsF fuel k as ts xs
    | some (cap, rest) =>
      match matchToksF fuel ts rest with
      | some caps => some ((k, cap) :: caps)
      | none => matchAltsF fuel k as ts xs

end

/-- Ample fuel for `matchToksF` (see its docstring for the depth bound). -/
def matchFuel (ts : List Tok) (xs : List Char) : Nat :=
  14 * ts.length + xs.length + 16

/-- Anchored match of a compiled format against an input. -/
def matchToks (ts : List Tok) (xs : List Char) : Option (List (Char × List Char)) :=
  matchToksF (matchFuel ts xs) ts xs

/-- Compile a `strptime` format string into tokens. -/
def patToks : List Char → List Tok
  | [] => []
  | '%' :: k :: rest => Tok.dir k :: patToks rest
  | c :: rest => (if isPyWs c then Tok.ws else Tok.lit c) :: patToks rest

/-- Parsed clock/date fields with `strptime` defaults. -/
structure DT where
  year : Nat
  month : Nat
  day : Nat
  hour : Nat
  minute : Nat
  second : Nat
deriving DecidableEq, Repr

/-- Days per month under the Gregorian leap rule (as `datetime` checks). -/
def daysInMonth (y m : Nat) : Nat :=
  if m = 2 then
    if y % 4 = 0 ∧ (y % 100 ≠ 0 ∨ y % 400 = 0) then 29 else 28
  else if m = 4 ∨ m = 6 ∨ m = 9 ∨ m = 11 then 30
  else 31

/-- Assemble the capture dictionary into a date and validate it exactly as
`datetime(year, month, day, hour, minute, second)` would
(`MINYEAR = 1`; seconds up to 61 pass the regex but not the constructor). -/
def buildDT (caps : List (Char × List Char)) : Option DT :=
  let year :=
    match List.lookup 'Y' caps with
    | some ds => digitVal ds
    | none =>
      match List.lookup 'y' caps with
      | some ds => let v := digitVal ds; if v ≤ 68 then 2000 + v else 1900 + v
      | none => 1900
  let month :=
    match List.lookup 'm' caps with
    | some ds => digitVal ds
    | none =>
      match List.lookup 'b' caps with
      | some w =>
        match (monthAbbrevs.indexOf? (pyLowerChars w)) with
        | some i => i + 1
        | none => 0
      | none =>
        match List.lookup 'B' caps with
        | some w =>
          match (monthNames.indexOf? (pyLowerChars w)) with
          | some i => i + 1
          | none => 0
        | none => 1
  let day := match List.lookup 'd' caps with | some ds => digitVal ds | none => 1
  let hour := match List.lookup 'H' caps with | some ds => digitVal ds | none => 0
  let minute := match List.lookup 'M' caps with | some ds => digitVal ds | none => 0
  let second := match List.lookup 'S' caps with | some ds => digitVal ds | none => 0
  if 1 ≤ year ∧ year ≤ 9999 ∧ 1 ≤ month ∧ month ≤ 12 ∧ 1 ≤ day ∧ day ≤ daysInMonth year month
      ∧ hour ≤ 23 ∧ minute ≤ 59 ∧ second ≤ 59 then
    some ⟨year, month, day, hour, minute, second⟩
  else none

/-- `datetime.strptime(value, pattern)` restricted to the directives the
source uses. -/
def strptime (pattern : String) (value : List Char) : Option DT :=
  (matchToks (patToks pattern.toList) value).bind buildDT

/-- The source's ordered pattern list ("all of these patterns have been
used!"), duplicates included. -/
def datePatterns : List String :=
  ["%Y-%m-%d",
   "%Y%m%d",
   "%Y-%m-%dT%H:%M:%S.000Z",
   "%Y-%m-%dT%H:%M:%SZ",
   "%Y-%m-%dT%H:%M:%S",
   "%Y-%m-%d %H:%M:%S",
   "%Y/%m/%d",
   "%Y %m %d",
   "%Y.%m.%d",
   "%Y-%d-%m",
   "%Y",
   "%Y.0",
   "%d/%m/%Y %H:%M:%S",
   "%d/%m/%Y %H:%M",
   "%d-%m-%Y",
   "%d-%m-%y",
   "%d-%m-%Y",
   "%d.%m.%Y",
   "%d.%m.%y",
   "%d/%m/%Y",
   "%d/%m/%y",
   "%d-%b-%Y",
   "%d-%b-%y",
   "%d %B %Y",
   "%b %d, %Y",
   "%b %d, %y",
   "%b-%y",
   "%m/%d/%Y"]

/-- Zero-pad a digit string on the left to width `w`. -/
def padDigits (w : Nat) (ds : List Char) : List Char :=
  List.replicate (w - ds.length) '0' ++ ds

/-- `date.strftime("%Y-%m-%d")` (zero-padded fields). -/
def renderDate (d : DT) : String :=
  String.mk (padDigits 4 (natDigits d.year) ++ '-' :: padDigits 2 (natDigits d.month)
    ++ '-' :: padDigits 2 (natDigits d.day))

/-- `value.strip(' ",')`. -/
def stripQuotes (s : String) : List Char :=
  let q : Char → Bool := fun c => c = ' ' ∨ c = '"' ∨ c = ','
  ((s.toList.dropWhile q).reverse.dropWhile q).reverse

/-- First pattern that parses, in list order. -/
def tryDatePatterns (value : List Char) : Option DT :=
  datePatterns.findSome? (fun p => strptime p value)

/-- `normalise_date(context, fieldvalue)`.  The failure branch logs the
module-global `field` (leaked from the main loop, where it always equals
the field being normalised), passed here explicitly as `field`; the
logged value is the pre-trim `fieldvalue`. -/
def normalise_date (context fieldvalue field : String) : String × List Issue :=
  let value := stripQuotes fieldvalue
  match tryDatePatterns value with
  | some d => (renderDate d, [])
  | none => ("", [⟨field, "date", fieldvalue⟩])

/-! ## The value classifier `normalise` -/

/-- A schema field definition as `normalise` consumes it: `name`, `type`,
optional `format`, and the `digital-land` extension's `strip` patterns
(each modelled as the `re.sub(pattern, "", ·)` function it denotes) and
`precision` (default 6). -/
structure FieldDef where
  name : String
  ftype : String
  format : String
  strip : List (String → String)
  precision : Nat

/-- The null sentinels (the list in the source also holds `None`, which
`value.lower()` never equals). -/
def sentinels : List String := ["", "-", "n/a", "#n/a", "???", "<null>"]

/-- `normalise(fieldname, value)`: sentinel check on the *untrimmed*
lower-cased value, schema strips, then dispatch by name/type/format.
`urlValid` abstracts `validators.url`; `idx` is the organisation URI
index.  Decimal formatting errors escape (`Except.error`). -/
def normalise (urlValid : String → Bool) (idx : List (String × String))
    (f : FieldDef) (value : String) : Except Unit (String × List Issue) :=
  if pyLower value ∈ sentinels then Except.ok ("", [])
  else
    let value := f.strip.foldl (fun v g => g v) value
    if f.name = "OrganisationURI" then
      Except.ok (normalise_organisation_uri idx f.name value)
    else if f.ftype = "integer" then
      Except.ok (normalise_integer f.name value)
    else if f.ftype = "number" then
      normalise_decimal f.name value f.precision
    else if f.format = "uri" then
      Except.ok (normalise_uri urlValid f.name value)
    else if f.ftype = "date" then
      Except.ok (normalise_date f.name value f.name)
    else
      Except.ok (value, [])

/-! ## Concrete fixtures used by several claim theorems -/

instance {ε α : Type} [DecidableEq ε] [DecidableEq α] : DecidableEq (Except ε α) := fun a b =>
  match a, b with
  | Except.ok x, Except.ok y =>
    if h : x = y then isTrue (by rw [h]) else isFalse (by simp [h])
  | Except.error x, Except.error y =>
    if h : x = y then isTrue (by rw [h]) else isFalse (by simp [h])
  | Except.ok _, Except.error _ => isFalse (by simp)
  | Except.error _, Except.ok _ => isFalse (by simp)

/-- A trivially-accepting stand-in for `validators.url`. -/
def urlTrue : String → Bool := fun _ => true

/-- A concrete stand-in transform (never lands within England). -/
def tconst : Dec → Dec → Dec × Dec :=
  fun _ _ => (Dec.finite false 0 0, Dec.finite false 0 0)

/-- A plain free-text field (no declared type/format). -/
def noteField : FieldDef := ⟨"Notes", "", "", [], 6⟩

/-- An integer-typed field. -/
def countField : FieldDef := ⟨"Dwellings", "integer", "", [], 6⟩

/-- A number-typed field. -/
def areaField : FieldDef := ⟨"Hectares", "number", "", [], 6⟩

/-- A date-typed field. -/
def startField : FieldDef := ⟨"StartDate", "date", "", [], 6⟩

/-- A uri-formatted field. -/
def siteField : FieldDef := ⟨"SiteplanURL", "", "uri", [], 6⟩

/-- The `OrganisationURI` field (dispatched by name). -/
def orgField : FieldDef := ⟨"OrganisationURI", "", "", [], 6⟩

/-- A free-text field with the schema strip regex `^ab` (whose
`re.sub(pattern, "", value)` action is this function). -/
def abField : FieldDef :=
  ⟨"Notes", "", "",
    [fun s => if s.toList.take 2 = ['a', 'b'] then String.mk (s.toList.drop 2) else s], 6⟩

/-- A number-typed field with a schema strip regex `£`. -/
def poundField : FieldDef :=
  ⟨"Hectares", "number", "", [fun s => String.mk (s.toList.filter (fun c => c ≠ '£'))], 6⟩

/-- A reference table whose single entry has an upper-cased canonical
URI. -/
def refsDemo : List OrgRow := [⟨"o1", "HTTP://X/A", "S1"⟩]

/-- A patch table pointing a literal value at `o1`. -/
def patchesDemo : List PatchRow := [⟨"Ashford DC", "o1"⟩]

/-- The organisation URI index built from the demo tables. -/
def orgIdxDemo : List (String × String) :=
  (load_organisations refsDemo patchesDemo).toOption.getD []

/-! ## C10 -/

/-- C10: on the parseable input "100" the decimal normaliser returns the
exponent-notation string "1E+2" (no issue logged), and the geometry
success branch, rendering through the same `format_decimal`, turns the
already-within-England pair (1, 50) into GeoX = "1", GeoY = "5E+1". -/
theorem c10_exponent_notation :
    normalise_decimal "Hectares" "100" 6 = Except.ok ("1E+2", []) ∧
    normalise_geometry tconst ⟨"1", "50"⟩ = Except.ok (⟨"1", "5E+1"⟩, []) ∧
    ("1E+2" : String) ≠ "100" := by
  refine ⟨rfl, rfl, by decide⟩

/-! ## C5 -/

/-- C5 is false of the code: an unparseable non-blank GeoX reaching the
geometry normaliser raises an uncaught `InvalidOperation` from
`Decimal("abc")` (the `isinstance(..., str)` guard is dead code), as does
a NaN comparison; and a number-typed value "Infinity" parses but then
`format_decimal` raises outside the `try`.  Each aborts the run instead
of blanking-and-logging. -/
theorem c5_uncaught_exceptions :
    normalise_geometry tconst ⟨"abc", "1"⟩ = Except.error () ∧
    normalise_geometry tconst ⟨"NaN", "1"⟩ = Except.error () ∧
    normalise urlTrue [] areaField "Infinity" = Except.error () := by
  refine ⟨rfl, rfl, rfl⟩

/-! ## C2 -/

/-- C2: when the pair ("0","0") fails the direct and swapped tests and
both reprojection attempts, the logged "OSGB" issue carries the value
"," — the comma-join of the two *already blanked* fields — not the
original raw pair "0,0". -/
theorem c2_osgb_logs_blanked_pair (t : Dec → Dec → Dec × Dec)
    (h : within_england (t (Dec.finite false 0 0) (Dec.finite false 0 0)).2
          (t (Dec.finite false 0 0) (Dec.finite false 0 0)).1 = some false) :
    normalise_geometry t ⟨"0", "0"⟩ =
      Except.ok (⟨"", ""⟩, [⟨"GeoX,GeoY", "OSGB", ","⟩]) ∧
    ("," : String) ≠ "0,0" := by
  constructor
  · have hp : parseDec "0" = some (Dec.finite false 0 0) := rfl
    have h0 : within_england (Dec.finite false 0 0) (Dec.finite false 0 0) = some false := rfl
    simp only [normalise_geometry, hp, h0, h, withinT]
    rfl
  · decide

/-- C2 witness: the hypothesis holds for the concrete transform
`tconst`, and the theorem applies. -/
theorem c2_osgb_logs_blanked_pair_witness :
    normalise_geometry tconst ⟨"0", "0"⟩ =
      Except.ok (⟨"", ""⟩, [⟨"GeoX,GeoY", "OSGB", ","⟩]) ∧
    ("," : String) ≠ "0,0" :=
  c2_osgb_logs_blanked_pair tconst (by decide)

/-! ## C4 -/

/-- C4 as stated is false: " -" trims and case-folds to the sentinel "-",
yet `normalise` compares the *untrimmed* lower-cased value against the
sentinel list, so the value passes through unchanged instead of
becoming blank. -/
theorem c4_counterexample :
    String.mk (stripWs (pyLower " -").toList) ∈ sentinels ∧
    normalise urlTrue [] noteField " -" = Except.ok (" -", []) ∧
    (" -" : String) ≠ "" := by
  refine ⟨by decide, rfl, by decide⟩

/-- C4 amended: for every raw value whose (untrimmed) lower-cased form is
one of "", "-", "n/a", "#n/a", "???", "<null>", `normalise` returns ""
immediately and logs no issue. -/
theorem c4_sentinels_blank (urlValid : String → Bool) (idx : List (String × String))
    (f : FieldDef) (v : String) (h : pyLower v ∈ sentinels) :
    normalise urlValid idx f v = Except.ok ("", []) := by
  simp [normalise, h]

/-- C4 witness: "N/A" lower-cases into the sentinel set and blanks. -/
theorem c4_sentinels_blank_witness :
    pyLower "N/A" ∈ sentinels ∧
    normalise urlTrue [] noteField "N/A" = Except.ok ("", []) :=
  ⟨by decide, c4_sentinels_blank urlTrue [] noteField "N/A" (by decide)⟩

/-! ## C6 -/

/-- C6 as stated is false: a patch row naming an organisation id that is
absent from the reference table does not merely "add no mapping" — the
`organisation[row["organisation"]]` lookup raises `KeyError` and the
build aborts. -/
theorem c6_counterexample :
    load_organisations [] [⟨"x", "unknown-org"⟩] = Except.error () := rfl

/-- C6 amended: a patch row with a *blank* organisation id adds no
mapping and the build continues with the remaining rows, while a
non-blank id missing from the reference table raises `KeyError`
(aborting the build). -/
theorem c6_patch_handling (org : List (String × OrgRow)) (idx : List (String × String))
    (ps : List PatchRow) (v : String) (p : PatchRow)
    (hne : p.organisation ≠ "") (habs : List.lookup p.organisation org = none) :
    loadPatches org (⟨v, ""⟩ :: ps) idx = loadPatches org ps idx ∧
    loadPatches org (p :: ps) idx = Except.error () := by
  constructor
  · simp [loadPatches]
  · simp [loadPatches, hne, habs]

/-- C6 witness: concrete blank-id and unknown-id patch rows. -/
theorem c6_patch_handling_witness :
    loadPatches [] [⟨"v", ""⟩] [] = loadPatches [] [] [] ∧
    loadPatches [] [(⟨"x", "unknown-org"⟩ : PatchRow)] [] = Except.error () :=
  c6_patch_handling [] [] [] "v" ⟨"x", "unknown-org"⟩ (by decide) rfl

/-! ## C3 -/

/-- C3 as stated is false: coercion-failure issues log the value *after*
schema strips and after the integer normaliser's internal `\.0+$` strip,
not the original raw value.  "abc.00" on an integer field logs "abc";
"£x" on a number field with a `£` strip logs "x". -/
theorem c3_counterexample :
    normalise urlTrue [] countField "abc.00" =
      Except.ok ("", [⟨"Dwellings", "integer", "abc"⟩]) ∧
    normalise urlTrue [] poundField "£x" =
      Except.ok ("", [⟨"Hectares", "decimal", "x"⟩]) ∧
    ("abc" : String) ≠ "abc.00" ∧ ("x" : String) ≠ "£x" := by
  refine ⟨rfl, rfl, by decide, by decide⟩

/-- C3 amended: the issue value is the value as handed to (or reworked
by) the failing normaliser — post-schema-strip everywhere; additionally
post-`\.0+$`-strip for integers, while the date and uri normalisers log
their argument before internal trimming/collapsing; and the value passed
on by `normalise` is the schema-stripped one. -/
theorem c3_issue_values :
    (∀ field v, pyInt (stripDotZeros v) = none →
      normalise_integer field v = ("", [⟨field, "integer", stripDotZeros v⟩])) ∧
    (∀ field v p, parseDec v = none →
      normalise_decimal field v p = Except.ok ("", [⟨field, "decimal", v⟩])) ∧
    (∀ c v field, tryDatePatterns (stripQuotes v) = none →
      normalise_date c v field = ("", [⟨field, "date", v⟩])) ∧
    (∀ urlValid field v, urlValid (collapseWs v) = false →
      normalise_uri urlValid field v = ("", [⟨field, "uri", v⟩])) ∧
    (∀ urlValid idx f v, pyLower v ∉ sentinels → f.name ≠ "OrganisationURI" →
      f.ftype = "integer" →
      normalise urlValid idx f v =
        Except.ok (normalise_integer f.name (f.strip.foldl (fun a g => g a) v))) := by
  refine ⟨?_, ?_, ?_, ?_, ?_⟩
  · intro field v h
    simp [normalise_integer, h]
  · intro field v p h
    simp [normalise_decimal, h]
  · intro c v field h
    simp [normalise_date, h]
  · intro urlValid field v h
    simp [normalise_uri, h]
  · intro urlValid idx f v hs hname hint
    simp [normalise, hs, hname, hint]

/-- C3 witness: concrete instances of every clause. -/
theorem c3_issue_values_witness :
    normalise_integer "Dwellings" "abc.00" = ("", [⟨"Dwellings", "integer", "abc"⟩]) ∧
    normalise_decimal "Hectares" "x" 6 = Except.ok ("", [⟨"Hectares", "decimal", "x"⟩]) ∧
    normalise_date "StartDate" "not-a-date" "StartDate" =
      ("", [⟨"StartDate", "date", "not-a-date"⟩]) ∧
    normalise_uri (fun _ => false) "SiteplanURL" "no scheme" =
      ("", [⟨"SiteplanURL", "uri", "no scheme"⟩]) ∧
    normalise urlTrue [] countField "42.0" =
      Except.ok (normalise_integer "Dwellings" "42.0") :=
  ⟨c3_issue_values.1 "Dwellings" "abc.00" (by decide),
   c3_issue_values.2.1 "Hectares" "x" 6 (by decide),
   c3_issue_values.2.2.1 "StartDate" "not-a-date" "StartDate" (by decide),
   c3_issue_values.2.2.2.1 (fun _ => false) "SiteplanURL" "no scheme" (by decide),
   c3_issue_values.2.2.2.2 urlTrue [] countField "42.0" (by decide) (by decide) rfl⟩

/-! ## C8 -/

/-- `findSome?` skips a prefix that yields `none` everywhere. -/
theorem findSome_skip {α β : Type} (f : α → Option β) :
    ∀ l₁ l₂ : List α, (∀ x ∈ l₁, f x = none) →
      (l₁ ++ l₂).findSome? f = l₂.findSome? f := by
  intro l₁
  induction l₁ with
  | nil => intro l₂ _; rfl
  | cons a as ih =>
    intro l₂ h
    have ha : f a = none := h a (by simp)
    simp only [List.cons_append, List.findSome?, ha]
    exact ih l₂ (fun x hx => h x (by simp [hx]))

/-- `findSome?` returns the head's value when the head succeeds. -/
theorem findSome_head {α β : Type} (f : α → Option β) (a : α) (l : List α)
    (b : β) (h : f a = some b) : (a :: l).findSome? f = some b := by
  simp only [List.findSome?, h]

/-- C8: the date normaliser tries the fixed ordered pattern list and
returns the first successful parse rendered as YYYY-MM-DD; when no
pattern matches the quote/space/comma-trimmed value it logs one issue of
datatype "date" (with the untrimmed value) and returns "".  In
particular "2020-01-31" and "31/01/2020" both yield "2020-01-31", and
"not-a-date" yields "" plus one issue. -/
theorem c8_date_normaliser :
    (∀ c v field ps1 p ps2 d, datePatterns = ps1 ++ p :: ps2 →
      (∀ q ∈ ps1, strptime q (stripQuotes v) = none) →
      strptime p (stripQuotes v) = some d →
      normalise_date c v field = (renderDate d, [])) ∧
    (∀ c v field, (∀ q ∈ datePatterns, strptime q (stripQuotes v) = none) →
      normalise_date c v field = ("", [⟨field, "date", v⟩])) ∧
    normalise_date "x" "2020-01-31" "x" = ("2020-01-31", []) ∧
    normalise_date "x" "31/01/2020" "x" = ("2020-01-31", []) ∧
    normalise_date "x" "not-a-date" "x" = ("", [⟨"x", "date", "not-a-date"⟩]) := by
  refine ⟨?_, ?_, rfl, rfl, rfl⟩
  · intro c v field ps1 p ps2 d hsplit hnone hp
    have : tryDatePatterns (stripQuotes v) = some d := by
      unfold tryDatePatterns
      rw [hsplit, findSome_skip _ ps1 (p :: ps2) hnone, findSome_head _ p ps2 d hp]
    simp [normalise_date, this]
  · intro c v field h
    have : tryDatePatterns (stripQuotes v) = none := by
      unfold tryDatePatterns
      have := findSome_skip (fun p => strptime p (stripQuotes v)) datePatterns [] h
      simpa using this
    simp [normalise_date, this]

/-- C8 witness: "31/01/2020" fails the 19 patterns before `%d/%m/%Y` and
succeeds there; "not-a-date" fails every pattern. -/
theorem c8_date_normaliser_witness :
    normalise_date "x" "31/01/2020" "x" = (renderDate ⟨2020, 1, 31, 0, 0, 0⟩, []) ∧
    normalise_date "y" "not-a-date" "y" = ("", [⟨"y", "date", "not-a-date"⟩]) :=
  ⟨c8_date_normaliser.1 "x" "31/01/2020" "x" (datePatterns.take 19) "%d/%m/%Y"
      (datePatterns.drop 20) ⟨2020, 1, 31, 0, 0, 0⟩ (by decide) (by decide) (by decide),
   c8_date_normaliser.2.1 "y" "not-a-date" "y" (by decide)⟩

/-! ## C7 -/

/-- The index built from the demo reference table alone. -/
def orgIdxRefOnly : List (String × String) :=
  (load_organisations refsDemo []).toOption.getD []

/-- C7 as stated is false: the index stores the *lower-cased*
`opendatacommunities` URI, so resolving an entry's canonical URI
"HTTP://X/A" returns "http://x/a", not the canonical URI itself. -/
theorem c7_counterexample :
    load_organisations refsDemo [] = Except.ok orgIdxRefOnly ∧
    normalise_organisation_uri orgIdxRefOnly "OrganisationURI" "HTTP://X/A" =
      ("http://x/a", []) ∧
    ("http://x/a" : String) ≠ "HTTP://X/A" := by
  refine ⟨rfl, rfl, by decide⟩

/-- Splitting off the last reference row: its dictionary writes sit on
top of the index built from the earlier rows. -/
theorem loadRefs_append_single (rs : List OrgRow) (e : OrgRow) :
    ∀ idx, loadRefs (rs ++ [e]) idx = refEntries e ++ loadRefs rs idx := by
  induction rs with
  | nil => intro idx; rfl
  | cons r rs ih => intro idx; exact ih (refEntries r ++ idx)

/-- Looking a key up in a prefix whose pairs all carry the same value. -/
theorem lookup_prefix_const (v : String) :
    ∀ (l rest : List (String × String)) (k : String), (∀ p ∈ l, p.2 = v) →
      k ∈ l.map Prod.fst → List.lookup k (l ++ rest) = some v := by
  intro l
  induction l with
  | nil => intro rest k _ hmem; simp at hmem
  | cons a t ih =>
    intro rest k hval hmem
    by_cases hk : k = a.1
    · have : (k == a.1) = true := by simp [hk]
      simp [List.lookup, this, hval a (by simp)]
    · have : (k == a.1) = false := by simp [hk]
      simp only [List.cons_append, List.lookup, this]
      refine ih rest k (fun p hp => hval p (by simp [hp])) ?_
      simp only [List.map_cons, List.mem_cons] at hmem
      exact hmem.resolve_left hk

/-- Every write of one reference row carries the row's lower-cased
`opendatacommunities` URI as its value. -/
theorem refEntries_values (e : OrgRow) :
    ∀ p ∈ refEntries e, p.2 = pyLower e.opendatacommunities := by
  intro p hp
  unfold refEntries at hp
  by_cases hc :
      containsSub "local-authority-eng".toList e.organisation.toList = true
  · simp only [hc, if_true, List.mem_cons, List.not_mem_nil, or_false] at hp
    rcases hp with h | h | h | h <;> simp [h]
  · simp only [if_neg hc, List.mem_cons, List.not_mem_nil, or_false] at hp
    rcases hp with h | h | h <;> simp [h]

/-- C7 amended: the resolver lower-cases and whitespace-collapses the
value and returns the index entry on an exact hit, else the entry for
the value's end segment, else logs kind "opendatacommunities-uri" and
returns ""; and every reference-table entry's *lower-cased* canonical
URI is resolvable through any of the entry's index keys — its URI
(up to case/whitespace), that URI's lower-case and end segment, and its
statistical-geography code — provided no later reference row or patch
row shadows the key (formalised: the entry is the last row and the
patch table is empty). -/
theorem c7_resolver :
    (∀ idx f v u, List.lookup (lower_uri v) idx = some u →
      normalise_organisation_uri idx f v = (u, [])) ∧
    (∀ idx f v u, List.lookup (lower_uri v) idx = none →
      List.lookup (end_of_uri (lower_uri v)) idx = some u →
      normalise_organisation_uri idx f v = (u, [])) ∧
    (∀ idx f v, List.lookup (lower_uri v) idx = none →
      List.lookup (end_of_uri (lower_uri v)) idx = none →
      normalise_organisation_uri idx f v =
        ("", [⟨f, "opendatacommunities-uri", v⟩])) ∧
    (∀ refs e idx f v, load_organisations (refs ++ [e]) [] = Except.ok idx →
      lower_uri v ∈ (refEntries e).map Prod.fst →
      normalise_organisation_uri idx f v = (pyLower e.opendatacommunities, [])) := by
  refine ⟨?_, ?_, ?_, ?_⟩
  · intro idx f v u h
    simp [normalise_organisation_uri, h]
  · intro idx f v u h1 h2
    simp [normalise_organisation_uri, h1, h2]
  · intro idx f v h1 h2
    simp [normalise_organisation_uri, h1, h2]
  · intro refs e idx f v hload hmem
    have hidx : idx = refEntries e ++ loadRefs refs [] := by
      have h0 : load_organisations (refs ++ [e]) [] =
          Except.ok (loadRefs (refs ++ [e]) []) := rfl
      rw [h0] at hload
      cases hload
      exact loadRefs_append_single refs e []
    have hl : List.lookup (lower_uri v) idx = some (pyLower e.opendatacommunities) := by
      rw [hidx]
      exact lookup_prefix_const _ _ _ _ (refEntries_values e) hmem
    simp [normalise_organisation_uri, hl]

/-- C7 witness: on the demo table the four routes — the canonical URI
itself (upper-cased), its lower-case, its end segment, and the
statistical-geography code — all resolve to the lower-cased canonical
URI, and an unknown value logs and blanks. -/
theorem c7_resolver_witness :
    normalise_organisation_uri orgIdxRefOnly "OrganisationURI" "HTTP://X/A" =
      (pyLower "HTTP://X/A", []) ∧
    normalise_organisation_uri orgIdxRefOnly "OrganisationURI" "http://x/a" =
      (pyLower "HTTP://X/A", []) ∧
    normalise_organisation_uri orgIdxRefOnly "OrganisationURI" "a" =
      (pyLower "HTTP://X/A", []) ∧
    normalise_organisation_uri orgIdxRefOnly "OrganisationURI" "S1" =
      (pyLower "HTTP://X/A", []) ∧
    normalise_organisation_uri orgIdxRefOnly "OrganisationURI" "nope" =
      ("", [⟨"OrganisationURI", "opendatacommunities-uri", "nope"⟩]) := by
  have h4 := c7_resolver.2.2.2
  refine ⟨h4 [] ⟨"o1", "HTTP://X/A", "S1"⟩ orgIdxRefOnly "OrganisationURI" "HTTP://X/A"
        rfl (by decide),
      h4 [] ⟨"o1", "HTTP://X/A", "S1"⟩ orgIdxRefOnly "OrganisationURI" "http://x/a"
        rfl (by decide),
      h4 [] ⟨"o1", "HTTP://X/A", "S1"⟩ orgIdxRefOnly "OrganisationURI" "a"
        rfl (by decide),
      h4 [] ⟨"o1", "HTTP://X/A", "S1"⟩ orgIdxRefOnly "OrganisationURI" "S1"
        rfl (by decide),
      c7_resolver.2.2.1 orgIdxRefOnly "OrganisationURI" "nope" (by decide) (by decide)⟩

/-! ## Digit-string infrastructure (for the decimal round-trip proofs) -/

/-- The ten digit characters. -/
def digitSet : List Char := ['0', '1', '2', '3', '4', '5', '6', '7', '8', '9']

theorem digitChar_mem (n : Nat) : digitChar n ∈ digitSet := by
  have h : n % 10 = 0 ∨ n % 10 = 1 ∨ n % 10 = 2 ∨ n % 10 = 3 ∨ n % 10 = 4 ∨ n % 10 = 5
      ∨ n % 10 = 6 ∨ n % 10 = 7 ∨ n % 10 = 8 ∨ n % 10 = 9 := by omega
  rcases h with h | h | h | h | h | h | h | h | h | h <;> simp [digitChar, h, digitSet]

theorem digitNat_digitChar (n : Nat) : digitNat (digitChar n) = n % 10 := by
  have h : n % 10 = 0 ∨ n % 10 = 1 ∨ n % 10 = 2 ∨ n % 10 = 3 ∨ n % 10 = 4 ∨ n % 10 = 5
      ∨ n % 10 = 6 ∨ n % 10 = 7 ∨ n % 10 = 8 ∨ n % 10 = 9 := by omega
  rcases h with h | h | h | h | h | h | h | h | h | h <;> rw [digitChar, h] <;> rfl

theorem natDigitsF_mem : ∀ fuel n c, c ∈ natDigitsF fuel n → c ∈ digitSet := by
  intro fuel
  induction fuel with
  | zero => intro n c h; simp [natDigitsF] at h
  | succ f ih =>
    intro n c h
    by_cases h10 : n < 10
    · simp only [natDigitsF, if_pos h10, List.mem_singleton] at h
      exact h ▸ digitChar_mem n
    · simp only [natDigitsF, if_neg h10, List.mem_append, List.mem_singleton] at h
      rcases h with h | h
      · exact ih _ _ h
      · exact h ▸ digitChar_mem n

theorem natDigits_mem (n : Nat) : ∀ c ∈ natDigits n, c ∈ digitSet :=
  fun c h => natDigitsF_mem (n + 1) n c h

theorem natDigitsF_ne_nil (fuel n : Nat) (h : 0 < fuel) : natDigitsF fuel n ≠ [] := by
  cases fuel with
  | zero => omega
  | succ f =>
    by_cases h10 : n < 10 <;> simp [natDigitsF, h10]

theorem natDigits_ne_nil (n : Nat) : natDigits n ≠ [] :=
  natDigitsF_ne_nil (n + 1) n (by omega)

theorem digitVal_foldl (l : List Char) :
    ∀ i : Nat, List.foldl (fun a c => a * 10 + digitNat c) i l =
      i * 10 ^ l.length + digitVal l := by
  induction l with
  | nil => intro i; simp [digitVal]
  | cons c t ih =>
    intro i
    have hv : digitVal (c :: t) = digitNat c * 10 ^ t.length + digitVal t := by
      show List.foldl _ _ (c :: t) = _
      rw [List.foldl_cons, ih (0 * 10 + digitNat c)]
      ring_nf
    rw [List.foldl_cons, ih (i * 10 + digitNat c), hv]
    simp [List.length_cons]
    ring

theorem digitVal_append (a b : List Char) :
    digitVal (a ++ b) = digitVal a * 10 ^ b.length + digitVal b := by
  unfold digitVal
  rw [List.foldl_append, digitVal_foldl b (List.foldl _ 0 a)]
  rfl

theorem digitVal_replicate_zero (k : Nat) (l : List Char) :
    digitVal (List.replicate k '0' ++ l) = digitVal l := by
  rw [digitVal_append]
  have h : digitVal (List.replicate k '0') = 0 := by
    induction k with
    | zero => rfl
    | succ m ih =>
      rw [List.replicate_succ]
      show List.foldl _ _ _ = _
      rw [List.foldl_cons]
      exact ih
  simp [h]

theorem digitVal_natDigitsF : ∀ fuel n, n < fuel → digitVal (natDigitsF fuel n) = n := by
  intro fuel
  induction fuel with
  | zero => intro n h; omega
  | succ f ih =>
    intro n h
    by_cases h10 : n < 10
    · have : digitVal (natDigitsF (f + 1) n) = digitVal [digitChar n] := by
        rw [natDigitsF, if_pos h10]
      rw [this]
      show 0 * 10 + digitNat (digitChar n) = n
      rw [digitNat_digitChar]
      omega
    · have hd : n / 10 < f := by
        have := Nat.div_lt_self (by omega : 0 < n) (by omega : 1 < 10)
        omega
      have : natDigitsF (f + 1) n = natDigitsF f (n / 10) ++ [digitChar n] := by
        rw [natDigitsF, if_neg h10]
      rw [this, digitVal_append, ih _ hd]
      have hone : digitVal [digitChar n] = digitNat (digitChar n) := by
        show 0 * 10 + digitNat (digitChar n) = _
        omega
      rw [hone, digitNat_digitChar]
      simp only [List.length_singleton, pow_one]
      omega

theorem digitVal_natDigits (n : Nat) : digitVal (natDigits n) = n :=
  digitVal_natDigitsF (n + 1) n (by omega)

/-! ### takeWhile / dropWhile helpers -/

theorem takeWhile_all_of (p : Char → Bool) :
    ∀ l : List Char, (∀ c ∈ l, p c = true) → l.takeWhile p = l ∧ l.dropWhile p = [] := by
  intro l
  induction l with
  | nil => intro _; exact ⟨rfl, rfl⟩
  | cons c t ih =>
    intro h
    have hc : p c = true := h c (by simp)
    have ht := ih (fun x hx => h x (by simp [hx]))
    constructor
    · rw [List.takeWhile_cons, if_pos hc, ht.1]
    · rw [List.dropWhile_cons, if_pos hc, ht.2]

theorem takeWhile_append_stop (p : Char → Bool) (x : Char) (hx : p x = false) :
    ∀ (A B : List Char), (∀ c ∈ A, p c = true) →
      (A ++ x :: B).takeWhile p = A ∧ (A ++ x :: B).dropWhile p = x :: B := by
  intro A
  induction A with
  | nil =>
    intro B _
    constructor
    · rw [List.nil_append, List.takeWhile_cons, if_neg (by simp [hx])]
    · rw [List.nil_append, List.dropWhile_cons, if_neg (by simp [hx])]
  | cons c t ih =>
    intro B h
    have hc : p c = true := h c (by simp)
    have ht := ih B (fun y hy => h y (by simp [hy]))
    constructor
    · rw [List.cons_append, List.takeWhile_cons, if_pos hc, ht.1]
    · rw [List.cons_append, List.dropWhile_cons, if_pos hc, ht.2]

theorem dropWhile_head_false (p : Char → Bool) (l : List Char)
    (h : ∀ c ∈ l, p c = false) : l.dropWhile p = l := by
  cases l with
  | nil => rfl
  | cons c t => rw [List.dropWhile_cons, if_neg (by simp [h c (by simp)])]

theorem stripWs_id (l : List Char) (h : ∀ c ∈ l, isPyWs c = false) : stripWs l = l := by
  unfold stripWs
  rw [dropWhile_head_false _ _ h,
    dropWhile_head_false _ _ (fun c hc => h c (List.mem_reverse.mp hc)), List.reverse_reverse]

theorem filter_no_underscore (l : List Char) (h : ∀ c ∈ l, c ≠ '_') :
    l.filter (fun c => c ≠ '_') = l := by
  induction l with
  | nil => rfl
  | cons c t ih =>
    rw [List.filter_cons, if_pos (by simp [h c (by simp)]), ih (fun x hx => h x (by simp [hx]))]

theorem underscoresOkAux_none : ∀ (l : List Char) (p : Char),
    (∀ c ∈ l, c ≠ '_') → underscoresOkAux p l = true := by
  intro l
  induction l with
  | nil => intro p _; rfl
  | cons c t ih =>
    intro p h
    have hc : c ≠ '_' := h c (by simp)
    unfold underscoresOkAux
    rw [if_neg hc]
    exact ih c (fun y hy => h y (by simp [hy]))

theorem underscoresOk_none (l : List Char) (h : ∀ c ∈ l, c ≠ '_') :
    underscoresOk l = true := by
  cases l with
  | nil => rfl
  | cons c t =>
    have hc : c ≠ '_' := h c (by simp)
    show (if c = '_' then false else underscoresOkAux c t) = true
    rw [if_neg hc]
    exact underscoresOkAux_none _ _ (fun y hy => h y (by simp [hy]))

/-! ### Reducing `parseDecBody` on inputs that start with a digit -/

theorem digit_facts : ∀ x ∈ digitSet,
    ((x.toLower == 'n') = false) ∧ ((x.toLower == 's') = false) ∧
    ((x.toLower == 'i') = false) ∧ (isDigitChar x = true) ∧
    (isPyWs x = false) ∧ (x ≠ '_') ∧ (x ≠ '-') ∧ (x ≠ '+') := by decide

theorem ciPrefix_head_ne (p : Char) (ps : List Char) (c : Char) (cs : List Char)
    (h : (c.toLower == p) = false) : ciPrefix (p :: ps) (c :: cs) = false := by
  simp [ciPrefix, h]

/-- On an input that starts with a digit, `parseDecBody` skips the
special values and runs the number grammar. -/
theorem parseDecBody_grammar (neg : Bool) (d0 : Char) (rest : List Char)
    (hd : d0 ∈ digitSet) :
    parseDecBody neg (d0 :: rest) =
      (let cs := d0 :: rest
       let ipart := cs.takeWhile isDigitChar
       let r := cs.dropWhile isDigitChar
       let hasDot := r.head? = some '.'
       let fpart := if hasDot then r.tail.takeWhile isDigitChar else []
       let rest' := if hasDot then r.tail.dropWhile isDigitChar else r
       if ipart.length + fpart.length = 0 then none
       else if rest' = [] then
         some (Dec.finite neg (digitVal (ipart ++ fpart)) (-(fpart.length : Int)))
       else if rest'.head? = some 'e' ∨ rest'.head? = some 'E' then
         let r2 := rest'.tail
         let esign := r2.head? = some '-' ∨ r2.head? = some '+'
         let ds := if esign then r2.tail else r2
         if ds ≠ [] ∧ ds.all isDigitChar then
           some (Dec.finite neg (digitVal (ipart ++ fpart))
             ((if r2.head? = some '-' then -1 else 1) * (digitVal ds : Int)
               - (fpart.length : Int)))
         else none
       else none) := by
  have h1 := ciPrefix_head_ne 'n' ['a', 'n'] d0 rest (digit_facts d0 hd).1
  have h2 := ciPrefix_head_ne 's' ['n', 'a', 'n'] d0 rest (digit_facts d0 hd).2.1
  have h3 := ciPrefix_head_ne 'i' ['n', 'f', 'i', 'n', 'i', 't', 'y'] d0 rest
    (digit_facts d0 hd).2.2.1
  have h4 := ciPrefix_head_ne 'i' ['n', 'f'] d0 rest (digit_facts d0 hd).2.2.1
  unfold parseDecBody
  rw [h1, h2, h3, h4]
  rfl

theorem isDigitChar_of_mem {x : Char} (h : x ∈ digitSet) : isDigitChar x = true :=
  (digit_facts x h).2.2.2.1

/-- Pure digit run: `parseDecBody neg "d…d" = coefficient with exponent 0`. -/
theorem parseDecBody_digits (neg : Bool) (ds : List Char) (hne : ds ≠ [])
    (hd : ∀ x ∈ ds, x ∈ digitSet) :
    parseDecBody neg ds = some (Dec.finite neg (digitVal ds) 0) := by
  obtain ⟨d0, dt, rfl⟩ : ∃ d0 dt, ds = d0 :: dt := by
    cases ds with
    | nil => exact absurd rfl hne
    | cons a b => exact ⟨a, b, rfl⟩
  rw [parseDecBody_grammar neg d0 dt (hd d0 (by simp))]
  have htw := takeWhile_all_of isDigitChar (d0 :: dt)
    (fun x hx => isDigitChar_of_mem (hd x hx))
  simp [htw.1, htw.2]

/-- Digits, a dot, digits: coefficient is the concatenation, exponent is
minus the fraction length. -/
theorem parseDecBody_dot (neg : Bool) (A B : List Char) (hne : A ≠ [])
    (hA : ∀ x ∈ A, x ∈ digitSet) (hB : ∀ x ∈ B, x ∈ digitSet) :
    parseDecBody neg (A ++ '.' :: B) =
      some (Dec.finite neg (digitVal (A ++ B)) (-(B.length : Int))) := by
  obtain ⟨d0, dt, rfl⟩ : ∃ d0 dt, A = d0 :: dt := by
    cases A with
    | nil => exact absurd rfl hne
    | cons a b => exact ⟨a, b, rfl⟩
  rw [List.cons_append, parseDecBody_grammar neg d0 (dt ++ '.' :: B) (hA d0 (by simp))]
  have hstop := takeWhile_append_stop isDigitChar '.' (by decide) (d0 :: dt)
    B (fun x hx => isDigitChar_of_mem (hA x hx))
  rw [List.cons_append] at hstop
  have hBtw := takeWhile_all_of isDigitChar B (fun x hx => isDigitChar_of_mem (hB x hx))
  simp [hstop.1, hstop.2, hBtw.1, hBtw.2]

/-- Digits, `E`, a sign, digits: exponent notation without a dot. -/
theorem parseDecBody_exp_nodot (neg : Bool) (A : List Char) (sgn : Char) (eds : List Char)
    (hne : A ≠ []) (hA : ∀ x ∈ A, x ∈ digitSet) (hsgn : sgn = '-' ∨ sgn = '+')
    (hene : eds ≠ []) (heds : ∀ x ∈ eds, x ∈ digitSet) :
    parseDecBody neg (A ++ 'E' :: sgn :: eds) =
      some (Dec.finite neg (digitVal A)
        ((if sgn = '-' then -1 else 1) * (digitVal eds : Int))) := by
  obtain ⟨d0, dt, rfl⟩ : ∃ d0 dt, A = d0 :: dt := by
    cases A with
    | nil => exact absurd rfl hne
    | cons a b => exact ⟨a, b, rfl⟩
  have hall : eds.all isDigitChar = true := by
    rw [List.all_eq_true]; exact fun x hx => isDigitChar_of_mem (heds x hx)
  have hsgnor : (sgn :: eds).head? = some '-' ∨ (sgn :: eds).head? = some '+' := by
    rcases hsgn with h | h <;> simp [h]
  rw [List.cons_append, parseDecBody_grammar neg d0 (dt ++ 'E' :: sgn :: eds)
    (hA d0 (by simp))]
  have hstop := takeWhile_append_stop isDigitChar 'E' (by decide) (d0 :: dt)
    (sgn :: eds) (fun x hx => isDigitChar_of_mem (hA x hx))
  rw [List.cons_append] at hstop
  rcases hsgn with rfl | rfl <;>
    simp [hstop.1, hstop.2, hene, hall]

/-- Digits, a dot, digits, `E`, a sign, digits: full exponent notation. -/
theorem parseDecBody_exp_dot (neg : Bool) (A B : List Char) (sgn : Char) (eds : List Char)
    (hne : A ≠ []) (hA : ∀ x ∈ A, x ∈ digitSet) (hB : ∀ x ∈ B, x ∈ digitSet)
    (hsgn : sgn = '-' ∨ sgn = '+')
    (hene : eds ≠ []) (heds : ∀ x ∈ eds, x ∈ digitSet) :
    parseDecBody neg (A ++ '.' :: (B ++ 'E' :: sgn :: eds)) =
      some (Dec.finite neg (digitVal (A ++ B))
        ((if sgn = '-' then -1 else 1) * (digitVal eds : Int) - (B.length : Int))) := by
  obtain ⟨d0, dt, rfl⟩ : ∃ d0 dt, A = d0 :: dt := by
    cases A with
    | nil => exact absurd rfl hne
    | cons a b => exact ⟨a, b, rfl⟩
  have hall : eds.all isDigitChar = true := by
    rw [List.all_eq_true]; exact fun x hx => isDigitChar_of_mem (heds x hx)
  have hsgnor : (sgn :: eds).head? = some '-' ∨ (sgn :: eds).head? = some '+' := by
    rcases hsgn with h | h <;> simp [h]
  rw [List.cons_append, parseDecBody_grammar neg d0 (dt ++ '.' :: (B ++ 'E' :: sgn :: eds))
    (hA d0 (by simp))]
  have hstop := takeWhile_append_stop isDigitChar '.' (by decide) (d0 :: dt)
    (B ++ 'E' :: sgn :: eds) (fun x hx => isDigitChar_of_mem (hA x hx))
  rw [List.cons_append] at hstop
  have hstopB := takeWhile_append_stop isDigitChar 'E' (by decide) B
    (sgn :: eds) (fun x hx => isDigitChar_of_mem (hB x hx))
  rcases hsgn with rfl | rfl <;>
    simp [hstop.1, hstop.2, hstopB.1, hstopB.2, hene, hall]

/-! ### The four shapes of `decBody`, with the data the parser recovers -/

theorem take_ne_nil_of (l : List Char) (n : Nat) (hl : l ≠ []) (hn : n ≠ 0) :
    l.take n ≠ [] := by
  cases l with
  | nil => exact absurd rfl hl
  | cons a b =>
    cases n with
    | zero => exact absurd rfl hn
    | succ m => simp

theorem decBody_cases (c : Nat) (e : Int) :
    (e = 0 ∧ decBody c e = natDigits c) ∨
    (∃ A B, decBody c e = A ++ '.' :: B ∧ A ≠ [] ∧ (∀ x ∈ A, x ∈ digitSet) ∧
      (∀ x ∈ B, x ∈ digitSet) ∧ digitVal (A ++ B) = c ∧ -(B.length : Int) = e) ∨
    (∃ A sgn eds, decBody c e = A ++ 'E' :: sgn :: eds ∧ A ≠ [] ∧
      (∀ x ∈ A, x ∈ digitSet) ∧ (sgn = '-' ∨ sgn = '+') ∧ eds ≠ [] ∧
      (∀ x ∈ eds, x ∈ digitSet) ∧ digitVal A = c ∧
      (if sgn = '-' then -1 else 1) * (digitVal eds : Int) = e) ∨
    (∃ A B sgn eds, decBody c e = A ++ '.' :: (B ++ 'E' :: sgn :: eds) ∧ A ≠ [] ∧
      (∀ x ∈ A, x ∈ digitSet) ∧ (∀ x ∈ B, x ∈ digitSet) ∧ (sgn = '-' ∨ sgn = '+') ∧
      eds ≠ [] ∧ (∀ x ∈ eds, x ∈ digitSet) ∧ digitVal (A ++ B) = c ∧
      (if sgn = '-' then -1 else 1) * (digitVal eds : Int) - (B.length : Int) = e) := by
  have hds : natDigits c ≠ [] := natDigits_ne_nil c
  have hdd : ∀ x ∈ natDigits c, x ∈ digitSet := natDigits_mem c
  have hdv : digitVal (natDigits c) = c := digitVal_natDigits c
  set ds := natDigits c with hdsdef
  set len := ds.length with hlen
  have hlen0 : 0 < len := by
    cases h : ds with
    | nil => exact absurd h hds
    | cons a b => rw [hlen, h]; simp
  by_cases h1 : e ≤ 0 ∧ -6 < e + (len : Int)
  · by_cases h2 : e = 0
    · left
      refine ⟨h2, ?_⟩
      unfold decBody
      rw [← hdsdef, ← hlen, if_pos h1, if_pos h2]
    · right; left
      by_cases h3 : 0 < e + (len : Int)
      · refine ⟨ds.take (e + (len : Int)).toNat, ds.drop (e + (len : Int)).toNat, ?_, ?_, ?_, ?_, ?_, ?_⟩
        · unfold decBody
          rw [← hdsdef, ← hlen, if_pos h1, if_neg h2, if_pos h3]
        · exact take_ne_nil_of ds _ hds (by omega)
        · exact fun x hx => hdd x (List.take_subset _ _ hx)
        · exact fun x hx => hdd x (List.drop_subset _ _ hx)
        · rw [List.take_append_drop]; exact hdv
        · have hk : ((e + (len : Int)).toNat : Int) = e + len := by omega
          have hle : (e + (len : Int)).toNat ≤ len := by omega
          rw [List.length_drop]
          omega
      · refine ⟨['0'], List.replicate (-(e + (len : Int))).toNat '0' ++ ds, ?_, by simp, ?_, ?_, ?_, ?_⟩
        · unfold decBody
          rw [← hdsdef, ← hlen, if_pos h1, if_neg h2, if_neg h3]
          rfl
        · decide
        · intro x hx
          rcases List.mem_append.mp hx with h | h
          · rw [List.eq_of_mem_replicate h]; decide
          · exact hdd x h
        · rw [digitVal_append]
          have h0 : digitVal ['0'] = 0 := rfl
          rw [h0, digitVal_replicate_zero]
          simp [hdv]
        · rw [List.length_append, List.length_replicate]
          omega
  · have hponly : decBody c e =
        (if ds.length = 1 then ds else ds.take 1 ++ '.' :: ds.drop 1) ++
          'E' :: (if e + (len : Int) - 1 < 0 then '-' else '+')
            :: natDigits (e + (len : Int) - 1).natAbs := by
      unfold decBody
      rw [← hdsdef, ← hlen, if_neg h1]
    have hsgn : ((if e + (len : Int) - 1 < 0 then '-' else '+') = '-' ∨
        (if e + (len : Int) - 1 < 0 then '-' else '+') = '+') := by
      by_cases hlt : e + (len : Int) - 1 < 0 <;> simp [hlt]
    have hene : natDigits (e + (len : Int) - 1).natAbs ≠ [] := natDigits_ne_nil _
    have hedd := natDigits_mem (e + (len : Int) - 1).natAbs
    have hedv : (if (if e + (len : Int) - 1 < 0 then '-' else '+') = '-' then -1 else 1) *
        (digitVal (natDigits (e + (len : Int) - 1).natAbs) : Int) = e + (len : Int) - 1 := by
      rw [digitVal_natDigits]
      by_cases hlt : e + (len : Int) - 1 < 0
      · rw [if_pos hlt, if_pos (by decide)]
        omega
      · rw [if_neg hlt, if_neg (by decide)]
        omega
    by_cases h4 : ds.length = 1
    · have h5 : len = 1 := by rw [hlen, h4]
      right; right; left
      refine ⟨ds, _, _, ?_, hds, hdd, hsgn, hene, hedd, hdv, ?_⟩
      · rw [hponly, if_pos h4]
      · rw [hedv]
        omega
    · have h5 : len = ds.length := hlen
      right; right; right
      refine ⟨ds.take 1, ds.drop 1, _, _, ?_, ?_, ?_, ?_, hsgn, hene, hedd, ?_, ?_⟩
      · rw [hponly, if_neg h4, List.append_assoc, List.cons_append]
      · exact take_ne_nil_of ds 1 hds (by omega)
      · exact fun x hx => hdd x (List.take_subset _ _ hx)
      · exact fun x hx => hdd x (List.drop_subset _ _ hx)
      · rw [List.take_append_drop]; exact hdv
      · rw [hedv, List.length_drop]
        omega

/-- The number grammar recovers exactly the coefficient and exponent
that `decBody` rendered. -/
theorem parseDecBody_decBody (neg : Bool) (c : Nat) (e : Int) :
    parseDecBody neg (decBody c e) = some (Dec.finite neg c e) := by
  rcases decBody_cases c e with ⟨he, hb⟩ | ⟨A, B, hb, hne, hA, hB, hv, he⟩ |
      ⟨A, sgn, eds, hb, hne, hA, hsgn, hene, heds, hv, he⟩ |
      ⟨A, B, sgn, eds, hb, hne, hA, hB, hsgn, hene, heds, hv, he⟩
  · rw [hb, parseDecBody_digits neg (natDigits c) (natDigits_ne_nil c) (natDigits_mem c),
      digitVal_natDigits, ← he]
  · rw [hb, parseDecBody_dot neg A B hne hA hB, hv, he]
  · rw [hb, parseDecBody_exp_nodot neg A sgn eds hne hA hsgn hene heds, hv, he]
  · rw [hb, parseDecBody_exp_dot neg A B sgn eds hne hA hB hsgn hene heds, hv, he]

/-- `decBody` always starts with a digit character. -/
theorem decBody_head (c : Nat) (e : Int) :
    ∃ d0 bt, decBody c e = d0 :: bt ∧ d0 ∈ digitSet := by
  rcases decBody_cases c e with ⟨_, hb⟩ | ⟨A, B, hb, hne, hA, _, _, _⟩ |
      ⟨A, sgn, eds, hb, hne, hA, _, _, _, _, _⟩ |
      ⟨A, B, sgn, eds, hb, hne, hA, _, _, _, _, _, _⟩
  · obtain ⟨d0, dt, hds⟩ : ∃ d0 dt, natDigits c = d0 :: dt := by
      cases h : natDigits c with
      | nil => exact absurd h (natDigits_ne_nil c)
      | cons a b => exact ⟨a, b, rfl⟩
    exact ⟨d0, dt, by rw [hb, hds], natDigits_mem c d0 (by rw [hds]; simp)⟩
  all_goals
    obtain ⟨d0, dt, hds⟩ : ∃ d0 dt, A = d0 :: dt := by
      cases h : A with
      | nil => exact absurd h hne
      | cons a b => exact ⟨a, b, rfl⟩
  · exact ⟨d0, dt ++ '.' :: B, by rw [hb, hds, List.cons_append],
      hA d0 (by rw [hds]; simp)⟩
  · exact ⟨d0, dt ++ 'E' :: sgn :: eds, by rw [hb, hds, List.cons_append],
      hA d0 (by rw [hds]; simp)⟩
  · exact ⟨d0, dt ++ '.' :: (B ++ 'E' :: sgn :: eds), by rw [hb, hds, List.cons_append],
      hA d0 (by rw [hds]; simp)⟩

/-- Character inventory of `decBody`. -/
theorem decBody_members (c : Nat) (e : Int) :
    ∀ x ∈ decBody c e, x ∈ digitSet ∨ x = '.' ∨ x = 'E' ∨ x = '-' ∨ x = '+' := by
  rcases decBody_cases c e with ⟨_, hb⟩ | ⟨A, B, hb, _, hA, hB, _, _⟩ |
      ⟨A, sgn, eds, hb, _, hA, hsgn, _, heds, _, _⟩ |
      ⟨A, B, sgn, eds, hb, _, hA, hB, hsgn, _, heds, _, _⟩ <;>
    intro x hx <;> rw [hb] at hx
  · exact Or.inl (natDigits_mem c x hx)
  · rcases List.mem_append.mp hx with h | h
    · exact Or.inl (hA x h)
    · rcases List.mem_cons.mp h with h | h
      · exact Or.inr (Or.inl h)
      · exact Or.inl (hB x h)
  · rcases List.mem_append.mp hx with h | h
    · exact Or.inl (hA x h)
    · rcases List.mem_cons.mp h with h | h
      · exact Or.inr (Or.inr (Or.inl h))
      · rcases List.mem_cons.mp h with h | h
        · rcases hsgn with hs | hs <;> rw [hs] at h
          · exact Or.inr (Or.inr (Or.inr (Or.inl h)))
          · exact Or.inr (Or.inr (Or.inr (Or.inr h)))
        · exact Or.inl (heds x h)
  · rcases List.mem_append.mp hx with h | h
    · exact Or.inl (hA x h)
    · rcases List.mem_cons.mp h with h | h
      · exact Or.inr (Or.inl h)
      · rcases List.mem_append.mp h with h | h
        · exact Or.inl (hB x h)
        · rcases List.mem_cons.mp h with h | h
          · exact Or.inr (Or.inr (Or.inl h))
          · rcases List.mem_cons.mp h with h | h
            · rcases hsgn with hs | hs <;> rw [hs] at h
              · exact Or.inr (Or.inr (Or.inr (Or.inl h)))
              · exact Or.inr (Or.inr (Or.inr (Or.inr h)))
            · exact Or.inl (heds x h)

/-- Rendered finite decimals contain no whitespace and no underscores. -/
theorem decDigitsStr_sane (neg : Bool) (c : Nat) (e : Int) :
    ∀ x ∈ decDigitsStr (Dec.finite neg c e), isPyWs x = false ∧ x ≠ '_' := by
  intro x hx
  have hinv : x ∈ digitSet ∨ x = '.' ∨ x = 'E' ∨ x = '-' ∨ x = '+' := by
    have hx' : x ∈ (if neg then ['-'] else []) ++ decBody c e := hx
    rcases List.mem_append.mp hx' with h | h
    · cases neg with
      | true => simp at h; exact Or.inr (Or.inr (Or.inr (Or.inl h)))
      | false => simp at h
    · exact decBody_members c e x h
  rcases hinv with h | h | h | h | h
  · revert h
    have : ∀ y ∈ digitSet, isPyWs y = false ∧ y ≠ '_' := by decide
    exact this x
  all_goals rw [h]; exact ⟨by decide, by decide⟩

/-- The central round-trip: parsing a rendered finite `Decimal` recovers
it exactly (sign, coefficient and exponent). -/
theorem parseDec_decStr (neg : Bool) (c : Nat) (e : Int) :
    parseDec (decStr (Dec.finite neg c e)) = some (Dec.finite neg c e) := by
  have hsane := decDigitsStr_sane neg c e
  have htl : (decStr (Dec.finite neg c e)).toList = decDigitsStr (Dec.finite neg c e) := rfl
  unfold parseDec
  rw [htl, stripWs_id _ (fun x hx => (hsane x hx).1)]
  rw [if_pos (underscoresOk_none _ (fun x hx => (hsane x hx).2))]
  rw [filter_no_underscore _ (fun x hx => (hsane x hx).2)]
  obtain ⟨d0, bt, hbody, hd0⟩ := decBody_head c e
  have hL : decDigitsStr (Dec.finite neg c e) = (if neg then ['-'] else []) ++ decBody c e := rfl
  cases neg with
  | true =>
    rw [hL]
    show parseDecCore ('-' :: decBody c e) = _
    unfold parseDecCore
    rw [if_pos (by simp)]
    exact parseDecBody_decBody true c e
  | false =>
    rw [hL]
    show parseDecCore (decBody c e) = _
    unfold parseDecCore
    rw [hbody]
    rw [if_neg (by simp [(digit_facts d0 hd0).2.2.2.2.2.2.1]),
      if_neg (by simp [(digit_facts d0 hd0).2.2.2.2.2.2.2])]
    rw [← hbody]
    exact parseDecBody_decBody false c e

/-! ### Rational semantics of the decimal operations -/

/-- The rational value of a finite `Decimal` (specials map to 0; they
never reach the value-level statements). -/
def decRat : Dec → ℚ
  | Dec.finite neg c e => (if neg then -1 else 1) * (c : ℚ) * (10 : ℚ) ^ e
  | _ => 0

/-- Round-half-to-even on rationals, floor-based: the reference
definition the coefficient arithmetic is checked against. -/
def rheQ (x : ℚ) : ℤ :=
  if x - ⌊x⌋ < 1 / 2 then ⌊x⌋
  else if 1 / 2 < x - ⌊x⌋ then ⌊x⌋ + 1
  else if ⌊x⌋ % 2 = 0 then ⌊x⌋ else ⌊x⌋ + 1

theorem rheQ_intCast (n : ℤ) : rheQ (n : ℚ) = n := by
  unfold rheQ
  rw [Int.floor_intCast]
  norm_num

theorem rheQ_natCast (n : ℕ) : rheQ (n : ℚ) = n := by
  have h : ((n : ℤ) : ℚ) = (n : ℚ) := by push_cast; rfl
  rw [← h, rheQ_intCast]

/-- Half-even rounding of `cn / m` agrees with the Nat-level
quotient/remainder computation (strict excess rounds up, a tie rounds to
the even quotient). -/
theorem rheQ_natDiv (cn m : ℕ) (hm : 0 < m) :
    rheQ ((cn : ℚ) / (m : ℚ)) =
      (if m < 2 * (cn % m) ∨ (2 * (cn % m) = m ∧ (cn / m) % 2 = 1) then ((cn / m : ℕ) : ℤ) + 1
       else ((cn / m : ℕ) : ℤ)) := by
  have hmQ : (0 : ℚ) < m := by exact_mod_cast hm
  have hm0 : (m : ℚ) ≠ 0 := ne_of_gt hmQ
  have hid : m * (cn / m) + cn % m = cn := Nat.div_add_mod cn m
  have hidQ : (m : ℚ) * ((cn / m : ℕ) : ℚ) + ((cn % m : ℕ) : ℚ) = (cn : ℚ) := by
    exact_mod_cast hid
  have hrlt : cn % m < m := Nat.mod_lt _ hm
  have hrltQ : ((cn % m : ℕ) : ℚ) < (m : ℚ) := by exact_mod_cast hrlt
  have hcnQ : (cn : ℚ) = ((cn / m : ℕ) : ℚ) * m + ((cn % m : ℕ) : ℚ) := by
    linear_combination -hidQ
  have hsplit : (cn : ℚ) / m = ((cn / m : ℕ) : ℚ) + ((cn % m : ℕ) : ℚ) / m := by
    calc (cn : ℚ) / m = (((cn / m : ℕ) : ℚ) * m + ((cn % m : ℕ) : ℚ)) / m := by rw [← hcnQ]
      _ = ((cn / m : ℕ) : ℚ) * m / m + ((cn % m : ℕ) : ℚ) / m := add_div _ _ _
      _ = ((cn / m : ℕ) : ℚ) + ((cn % m : ℕ) : ℚ) / m := by
          rw [mul_div_cancel_right₀ _ hm0]
  have hrm0 : (0 : ℚ) ≤ ((cn % m : ℕ) : ℚ) / m := by positivity
  have hrm1 : ((cn % m : ℕ) : ℚ) / m < 1 := by
    rw [div_lt_one hmQ]
    exact hrltQ
  have hfloor : ⌊(cn : ℚ) / m⌋ = ((cn / m : ℕ) : ℤ) := by
    rw [hsplit]
    rw [show ((cn / m : ℕ) : ℚ) = (((cn / m : ℕ) : ℤ) : ℚ) by push_cast; rfl]
    rw [add_comm, Int.floor_add_int]
    rw [Int.floor_eq_zero_iff.mpr (by constructor <;> simp [hrm0, hrm1])]
    omega
  have hfract : (cn : ℚ) / m - (((cn / m : ℕ) : ℤ) : ℚ) = ((cn % m : ℕ) : ℚ) / m := by
    rw [hsplit, Int.cast_natCast]
    ring
  have hlt : ((cn % m : ℕ) : ℚ) / m < 1 / 2 ↔ 2 * (cn % m) < m := by
    have hn : (cn % m) * 2 < m ↔ 2 * (cn % m) < m := by omega
    rw [div_lt_div_iff hmQ (by norm_num : (0 : ℚ) < 2), one_mul]
    exact_mod_cast hn
  have hgt : 1 / 2 < ((cn % m : ℕ) : ℚ) / m ↔ m < 2 * (cn % m) := by
    have hn : m < (cn % m) * 2 ↔ m < 2 * (cn % m) := by omega
    rw [div_lt_div_iff (by norm_num : (0 : ℚ) < 2) hmQ, one_mul]
    exact_mod_cast hn
  unfold rheQ
  rw [hfloor, hfract]
  by_cases h1 : 2 * (cn % m) < m
  · rw [if_pos (hlt.mpr h1), if_neg (by omega)]
  · by_cases h2 : m < 2 * (cn % m)
    · rw [if_neg (by rw [hlt]; omega), if_pos (hgt.mpr h2), if_pos (Or.inl h2)]
    · have htie : 2 * (cn % m) = m := by omega
      rw [if_neg (by rw [hlt]; omega), if_neg (by rw [hgt]; omega)]
      have hm2 : ((cn / m : ℕ) : ℤ) % 2 = ((cn / m) % 2 : ℕ) := by push_cast; rfl
      by_cases hpar : (cn / m) % 2 = 1
      · rw [if_neg (by rw [hm2]; omega), if_pos (Or.inr ⟨htie, hpar⟩)]
      · rw [if_pos (by rw [hm2]; omega), if_neg (by omega)]

/-- `stripZerosF` preserves the value `c * 10 ^ e`. -/
theorem stripZerosF_val : ∀ (fuel c : Nat) (e : Int),
    ((stripZerosF fuel c e).1 : ℚ) * 10 ^ (stripZerosF fuel c e).2 = (c : ℚ) * 10 ^ e := by
  intro fuel
  induction fuel with
  | zero => intro c e; rfl
  | succ f ih =>
    intro c e
    by_cases h : c % 10 = 0 ∧ c ≠ 0
    · have hstep : stripZerosF (f + 1) c e = stripZerosF f (c / 10) (e + 1) := by
        rw [stripZerosF, if_pos h]
      rw [hstep, ih (c / 10) (e + 1)]
      have hc : (c / 10 : ℕ) * 10 = c := Nat.div_mul_cancel (Nat.dvd_of_mod_eq_zero h.1)
      have hcQ : ((c / 10 : ℕ) : ℚ) * 10 = (c : ℚ) := by exact_mod_cast hc
      rw [zpow_add_one₀ (by norm_num : (10 : ℚ) ≠ 0)]
      calc ((c / 10 : ℕ) : ℚ) * (10 ^ e * 10) = (((c / 10 : ℕ) : ℚ) * 10) * 10 ^ e := by ring
        _ = (c : ℚ) * 10 ^ e := by rw [hcQ]
    · rw [stripZerosF, if_neg h]

/-- `normalize` preserves the rational value. -/
theorem decRat_normalize (d : Dec) : decRat (normalizeDec d) = decRat d := by
  cases d with
  | finite neg c e =>
    by_cases hc : c = 0
    · subst hc
      show decRat (Dec.finite neg 0 0) = _
      simp [decRat]
    · have hn : normalizeDec (Dec.finite neg c e) =
          Dec.finite neg (stripZeros c e).1 (stripZeros c e).2 := by
        show (if c = 0 then Dec.finite neg 0 0 else _) = _
        rw [if_neg hc]
      rw [hn]
      have hval := stripZerosF_val c c e
      show (if neg then (-1 : ℚ) else 1) * ((stripZeros c e).1 : ℚ) * 10 ^ (stripZeros c e).2 =
        (if neg then (-1 : ℚ) else 1) * (c : ℚ) * 10 ^ e
      unfold stripZeros
      rw [mul_assoc, mul_assoc, hval]
  | nan => rfl
  | snan => rfl
  | inf neg => rfl

/-- `round(d, 6)` (quantize to `1E-6` under `ROUND_HALF_EVEN`), when it
does not overflow the context precision, computes exactly the half-even
rounding of `|d| * 10^6`. -/
theorem quantize_val (neg : Bool) (c : Nat) (e : Int) (d' : Dec)
    (h : quantizeHalfEven (Dec.finite neg c e) (-6) = Except.ok d') :
    ∃ q : Nat, d' = Dec.finite neg q (-6) ∧
      (q : ℚ) = rheQ ((c : ℚ) * (10 : ℚ) ^ e * 10 ^ 6) := by
  have h10 : ((10 : ℚ)) ≠ 0 := by norm_num
  simp only [quantizeHalfEven] at h
  by_cases hp : (-6 : Int) ≤ e
  · rw [if_pos hp] at h
    by_cases hov : 10 ^ 28 ≤ c * 10 ^ (e - (-6)).toNat
    · rw [if_pos hov] at h
      simp at h
    · rw [if_neg hov] at h
      simp only [Except.ok.injEq] at h
      refine ⟨c * 10 ^ (e - (-6)).toNat, h.symm, ?_⟩
      have hk : ((e - (-6)).toNat : ℤ) = e + 6 := by omega
      have harg : (c : ℚ) * (10 : ℚ) ^ e * 10 ^ 6 =
          ((c * 10 ^ (e - (-6)).toNat : ℕ) : ℚ) := by
        push_cast
        rw [mul_assoc, ← zpow_natCast (10 : ℚ) (e - (-6)).toNat, hk,
          ← zpow_natCast (10 : ℚ) 6]
        rw [← zpow_add₀ h10]
        norm_num
      rw [harg, rheQ_natCast]
      push_cast
      rfl
  · rw [if_neg hp] at h
    by_cases hov : 10 ^ 28 ≤
        (if 5 * 10 ^ ((-6 - e).toNat - 1) < c % 10 ^ (-6 - e).toNat ∨
            (c % 10 ^ (-6 - e).toNat = 5 * 10 ^ ((-6 - e).toNat - 1) ∧
              c / 10 ^ (-6 - e).toNat % 2 = 1) then
          c / 10 ^ (-6 - e).toNat + 1
        else c / 10 ^ (-6 - e).toNat)
    · rw [if_pos hov] at h
      simp at h
    · rw [if_neg hov] at h
      simp only [Except.ok.injEq] at h
      refine ⟨_, h.symm, ?_⟩
      have hkz : ((-6 - e).toNat : ℤ) = -6 - e := by omega
      have hk1 : 1 ≤ (-6 - e).toNat := by omega
      have hm : (0 : ℕ) < 10 ^ (-6 - e).toNat := by positivity
      have harg : (c : ℚ) * (10 : ℚ) ^ e * 10 ^ 6 =
          (c : ℚ) / ((10 ^ (-6 - e).toNat : ℕ) : ℚ) := by
        rw [mul_assoc, ← zpow_natCast (10 : ℚ) 6, ← zpow_add₀ h10]
        have he6 : e + ((6 : ℕ) : ℤ) = -(((-6 - e).toNat : ℤ)) := by
          push_cast
          omega
        rw [he6, zpow_neg, zpow_natCast]
        push_cast
        rw [div_eq_mul_inv]
      rw [harg, rheQ_natDiv c (10 ^ (-6 - e).toNat) hm]
      have h2h : 2 * (5 * 10 ^ ((-6 - e).toNat - 1)) = 10 ^ (-6 - e).toNat := by
        have hke : (-6 - e).toNat - 1 + 1 = (-6 - e).toNat := by omega
        calc 2 * (5 * 10 ^ ((-6 - e).toNat - 1)) = 10 ^ ((-6 - e).toNat - 1) * 10 := by ring
          _ = 10 ^ ((-6 - e).toNat - 1 + 1) := (pow_succ 10 _).symm
          _ = 10 ^ (-6 - e).toNat := by rw [hke]
      by_cases hcond : 5 * 10 ^ ((-6 - e).toNat - 1) < c % 10 ^ (-6 - e).toNat ∨
          (c % 10 ^ (-6 - e).toNat = 5 * 10 ^ ((-6 - e).toNat - 1) ∧
            c / 10 ^ (-6 - e).toNat % 2 = 1)
      · rw [if_pos hcond, if_pos (by omega)]
        rw [Int.cast_add, Int.cast_natCast, Int.cast_one, Nat.cast_add, Nat.cast_one]
      · rw [if_neg hcond, if_neg (by omega)]
        rw [Int.cast_natCast]

/-! ## C1 -/

/-- Plain positional rendering with no exponent notation ("`2` stays
`2`, never `2.0`"). -/
def plainRender (neg : Bool) (c : Nat) (e : Int) : String :=
  let ds := natDigits c
  let sign : List Char := if neg then ['-'] else []
  if 0 ≤ e then String.mk (sign ++ ds ++ List.replicate e.toNat '0')
  else if e.natAbs < ds.length then
    String.mk (sign ++ ds.take (ds.length - e.natAbs) ++ '.' :: ds.drop (ds.length - e.natAbs))
  else
    String.mk (sign ++ '0' :: '.' :: (List.replicate (e.natAbs - ds.length) '0' ++ ds))

/-- The decimal normaliser as claim C1 words it (spec §4.2): parse the
exact decimal, round to the field's declared precision `p` using round
half *away from zero*, strip trailing insignificant zeros and render
plainly.  Used only to compare the claim's words against the code. -/
def specRoundHalfAway (v : String) (p : Nat) : Option String :=
  match parseDec v with
  | some (Dec.finite neg c e) =>
    let target : Int := -(p : Int)
    let rounded : Nat × Int :=
      if target ≤ e then (c * 10 ^ (e - target).toNat, target)
      else
        let k := (target - e).toNat
        let q := c / 10 ^ k
        let r := c % 10 ^ k
        (if 5 * 10 ^ (k - 1) ≤ r then q + 1 else q, target)
    match normalizeDec (Dec.finite neg rounded.1 rounded.2) with
    | Dec.finite neg' c' e' => some (plainRender neg' c' e')
    | _ => none
  | _ => none

/-- C1 as stated is false on two counts: the declared precision is
accepted but never forwarded (so `p = 2` still rounds to 6 digits), and
the rounding is half-to-even, not half-away-from-zero ("1.0000025"
rounds down to "1.000002"). -/
theorem c1_counterexample :
    normalise_decimal "Hectares" "1.0000025" 6 = Except.ok ("1.000002", []) ∧
    specRoundHalfAway "1.0000025" 6 = some "1.000003" ∧
    normalise_decimal "Hectares" "1.234" 2 = Except.ok ("1.234", []) ∧
    specRoundHalfAway "1.234" 2 = some "1.23" ∧
    ("1.000002" : String) ≠ "1.000003" ∧ ("1.234" : String) ≠ "1.23" := by
  refine ⟨rfl, rfl, rfl, rfl, by decide, by decide⟩

/-- C1 amended: the decimal normaliser ignores the declared precision
(always 6 fractional digits), and on success the rendered value — which
re-parses exactly — is the input's magnitude rounded to 6 fractional
digits with ties to *even* (`rheQ`), with the sign preserved. -/
theorem c1_decimal_rounding :
    (∀ f v p q, normalise_decimal f v p = normalise_decimal f v q) ∧
    (∀ f v p neg c e w, parseDec v = some (Dec.finite neg c e) →
      normalise_decimal f v p = Except.ok (w, []) →
      ∃ c' e', parseDec w = some (Dec.finite neg c' e') ∧
        (c' : ℚ) * (10 : ℚ) ^ e' =
          (rheQ ((c : ℚ) * (10 : ℚ) ^ e * 10 ^ 6) : ℚ) / 10 ^ 6) := by
  constructor
  · intro f v p q
    rfl
  · intro f v p neg c e w hparse hrun
    simp only [normalise_decimal, hparse] at hrun
    unfold format_decimal at hrun
    cases hq : quantizeHalfEven (Dec.finite neg c e) (-6) with
    | error u =>
      rw [hq] at hrun
      simp [Except.map] at hrun
    | ok dq =>
      rw [hq] at hrun
      simp only [Except.map, Except.ok.injEq, Prod.mk.injEq] at hrun
      have hw : w = decStr (normalizeDec dq) := hrun.1.symm
      obtain ⟨q, rfl, hval⟩ := quantize_val neg c e dq hq
      have hshape : ∃ c' e', normalizeDec (Dec.finite neg q (-6)) = Dec.finite neg c' e' := by
        by_cases hq0 : q = 0
        · subst hq0
          exact ⟨0, 0, rfl⟩
        · refine ⟨(stripZeros q (-6)).1, (stripZeros q (-6)).2, ?_⟩
          show (if q = 0 then Dec.finite neg 0 0 else _) = _
          rw [if_neg hq0]
      obtain ⟨c', e', hnd⟩ := hshape
      refine ⟨c', e', ?_, ?_⟩
      · rw [hw, hnd]
        exact parseDec_decStr neg c' e'
      · have hpres := decRat_normalize (Dec.finite neg q (-6))
        rw [hnd] at hpres
        have hsv : (if neg then (-1 : ℚ) else 1) * (c' : ℚ) * 10 ^ e' =
            (if neg then (-1 : ℚ) else 1) * (q : ℚ) * 10 ^ (-6 : ℤ) := hpres
        have hcancel : (c' : ℚ) * (10 : ℚ) ^ e' = (q : ℚ) * 10 ^ (-6 : ℤ) := by
          cases neg <;> simpa using hsv
        rw [hcancel, hval]
        rw [zpow_neg, div_eq_mul_inv, ← zpow_natCast (10 : ℚ) 6]
        norm_num

/-- C1 witness: "1.0000025" with declared precision 2 still rounds at 6
digits, to the even neighbour. -/
theorem c1_decimal_rounding_witness :
    normalise_decimal "Hectares" "1.0000025" 2 = Except.ok ("1.000002", []) ∧
    (∃ c' e', parseDec "1.000002" = some (Dec.finite false c' e') ∧
      (c' : ℚ) * (10 : ℚ) ^ e' =
        (rheQ ((10000025 : ℚ) * (10 : ℚ) ^ (-7 : ℤ) * 10 ^ 6) : ℚ) / 10 ^ 6) :=
  ⟨rfl, by
    have h := c1_decimal_rounding.2 "Hectares" "1.0000025" 2 false 10000025 (-7) "1.000002"
      (by decide) rfl
    push_cast at h ⊢
    exact h⟩

/-! ## C9 infrastructure -/

/-- A string containing a digit character is never a null sentinel, even
after lower-casing. -/
theorem not_sentinel_of_digit (s : String) (c : Char) (hc : c ∈ s.toList)
    (hd : c ∈ digitSet) : pyLower s ∉ sentinels := by
  intro hmem
  have hmap : Char.toLower c ∈ (pyLower s).toList := by
    show Char.toLower c ∈ pyLowerChars s.toList
    exact List.mem_map_of_mem Char.toLower hc
  have hlc : Char.toLower c = c := by
    revert hd
    have : ∀ y ∈ digitSet, Char.toLower y = y := by decide
    exact this c
  rw [hlc] at hmap
  have hnone : ∀ t ∈ sentinels, ∀ x ∈ t.toList, x ∉ digitSet := by decide
  exact hnone _ hmem c hmap hd

/-- All characters of a rendered integer are digits or a leading minus. -/
theorem intDigits_members (n : Int) :
    ∀ x ∈ intDigits n, x ∈ digitSet ∨ x = '-' := by
  intro x hx
  unfold intDigits at hx
  rcases List.mem_append.mp hx with h | h
  · by_cases hn : n < 0
    · rw [if_pos hn] at h
      simp at h
      exact Or.inr h
    · rw [if_neg hn] at h
      simp at h
  · exact Or.inl (natDigits_mem _ x h)

/-- A rendered integer contains a digit. -/
theorem intDigits_has_digit (n : Int) : ∃ c ∈ intDigits n, c ∈ digitSet := by
  obtain ⟨d0, dt, hds⟩ : ∃ d0 dt, natDigits n.natAbs = d0 :: dt := by
    cases h : natDigits n.natAbs with
    | nil => exact absurd h (natDigits_ne_nil _)
    | cons a b => exact ⟨a, b, rfl⟩
  refine ⟨d0, ?_, natDigits_mem _ d0 (by rw [hds]; simp)⟩
  unfold intDigits
  rw [hds]
  simp

/-- `head?` membership. -/
theorem mem_of_head?_eq (l : List Char) (x : Char) (h : l.head? = some x) : x ∈ l := by
  cases l with
  | nil => simp at h
  | cons a b =>
    simp at h
    simp [h]

/-- The integer `\.0+$` strip leaves a rendered integer unchanged (it
contains no dot). -/
theorem stripDotZeros_intDigits (n : Int) :
    stripDotZeros (format_integer n) = format_integer n := by
  unfold stripDotZeros
  have htl : (format_integer n).toList = intDigits n := rfl
  rw [htl]
  set cs := intDigits n with hcs
  by_cases hcond : 0 < (cs.reverse.takeWhile (fun c => c = '0')).length ∧
      (cs.reverse.drop (cs.reverse.takeWhile (fun c => c = '0')).length).head? = some '.'
  · exfalso
    have hdot : ('.' : Char) ∈ cs := by
      have h1 := mem_of_head?_eq _ _ hcond.2
      have h2 : ('.' : Char) ∈ cs.reverse := List.drop_subset _ _ h1
      exact List.mem_reverse.mp h2
    rcases intDigits_members n '.' hdot with h | h
    · exact absurd h (by decide)
    · exact absurd h (by decide)
  · rw [if_neg hcond]

/-- `int(...)` of a rendered integer gives the integer back. -/
theorem pyInt_format_integer (n : Int) : pyInt (format_integer n) = some n := by
  have hmem := intDigits_members n
  have hsane : ∀ x ∈ intDigits n, isPyWs x = false ∧ x ≠ '_' := by
    intro x hx
    rcases hmem x hx with h | h
    · exact ⟨(digit_facts x h).2.2.2.2.1, (digit_facts x h).2.2.2.2.2.1⟩
    · rw [h]
      exact ⟨by decide, by decide⟩
  unfold pyInt
  have htl : (format_integer n).toList = intDigits n := rfl
  rw [htl, stripWs_id _ (fun x hx => (hsane x hx).1)]
  rw [if_pos (underscoresOk_none _ (fun x hx => (hsane x hx).2))]
  rw [filter_no_underscore _ (fun x hx => (hsane x hx).2)]
  obtain ⟨d0, dt, hds⟩ : ∃ d0 dt, natDigits n.natAbs = d0 :: dt := by
    cases h : natDigits n.natAbs with
    | nil => exact absurd h (natDigits_ne_nil _)
    | cons a b => exact ⟨a, b, rfl⟩
  have hd0 : d0 ∈ digitSet := natDigits_mem _ d0 (by rw [hds]; simp)
  have hall : (natDigits n.natAbs).all isDigitChar = true := by
    rw [List.all_eq_true]
    exact fun x hx => isDigitChar_of_mem (natDigits_mem _ x hx)
  by_cases hn : n < 0
  · have hL : intDigits n = '-' :: natDigits n.natAbs := by
      unfold intDigits
      rw [if_pos hn]
      rfl
    rw [hL]
    unfold pyIntCore
    rw [if_pos (by simp)]
    rw [if_pos ⟨by simp [natDigits_ne_nil n.natAbs], by simpa using hall⟩]
    rw [if_pos (by simp)]
    simp only [List.tail_cons, digitVal_natDigits]
    congr 1
    omega
  · have hL : intDigits n = natDigits n.natAbs := by
      unfold intDigits
      rw [if_neg hn]
      rfl
    rw [hL, hds]
    unfold pyIntCore
    rw [if_neg (by
      simp only [List.head?_cons]
      push_neg
      exact ⟨by simp [(digit_facts d0 hd0).2.2.2.2.2.2.1],
        by simp [(digit_facts d0 hd0).2.2.2.2.2.2.2]⟩)]
    rw [if_pos ⟨by simp, by rw [← hds]; simpa using hall⟩]
    rw [← hds, digitVal_natDigits]
    congr 1
    omega

/-- `stripZerosF` factors its input exactly: the stripped coefficient
times the removed power of ten gives back the original, and the exponent
only grows. -/
theorem stripZerosF_prod : ∀ (fuel c : Nat) (e : Int),
    (stripZerosF fuel c e).1 * 10 ^ ((stripZerosF fuel c e).2 - e).toNat = c ∧
      e ≤ (stripZerosF fuel c e).2 := by
  intro fuel
  induction fuel with
  | zero =>
    intro c e
    constructor
    · show c * 10 ^ ((e - e).toNat) = c
      simp
    · exact le_refl e
  | succ f ih =>
    intro c e
    by_cases h : c % 10 = 0 ∧ c ≠ 0
    · have hstep : stripZerosF (f + 1) c e = stripZerosF f (c / 10) (e + 1) := by
        rw [stripZerosF, if_pos h]
      rw [hstep]
      obtain ⟨ih1, ih2⟩ := ih (c / 10) (e + 1)
      constructor
      · have hk : ((stripZerosF f (c / 10) (e + 1)).2 - e).toNat =
            ((stripZerosF f (c / 10) (e + 1)).2 - (e + 1)).toNat + 1 := by omega
        rw [hk, pow_succ, ← mul_assoc, ih1]
        exact Nat.div_mul_cancel (Nat.dvd_of_mod_eq_zero h.1)
      · omega
    · rw [stripZerosF, if_neg h]
      constructor
      · show c * 10 ^ ((e - e).toNat) = c
        simp
      · exact le_refl e

/-- Re-quantizing a normalized quantize result is the identity: the
trailing zeros stripped by `normalize` are padded straight back (and the
28-digit check cannot fire again). -/
theorem quantize_normalize_stable (neg : Bool) (q : Nat) (hq : ¬ 10 ^ 28 ≤ q) :
    quantizeHalfEven (normalizeDec (Dec.finite neg q (-6))) (-6) =
      Except.ok (Dec.finite neg q (-6)) := by
  by_cases hq0 : q = 0
  · subst hq0
    rfl
  · have hnd : normalizeDec (Dec.finite neg q (-6)) =
        Dec.finite neg (stripZeros q (-6)).1 (stripZeros q (-6)).2 := by
      show (if q = 0 then Dec.finite neg 0 0 else _) = _
      rw [if_neg hq0]
    rw [hnd]
    obtain ⟨hprod, hle⟩ := stripZerosF_prod q q (-6)
    have hle' : (-6 : Int) ≤ (stripZeros q (-6)).2 := hle
    simp only [quantizeHalfEven]
    rw [if_pos hle']
    have hpad : (stripZeros q (-6)).1 * 10 ^ ((stripZeros q (-6)).2 - (-6)).toNat = q := hprod
    rw [hpad]
    rw [if_neg hq]

/-- The decimal normaliser is idempotent on its own successful output. -/
theorem normalise_decimal_stable (f g : String) (v w : String) (p p' : Nat)
    (h : normalise_decimal f v p = Except.ok (w, [])) :
    normalise_decimal g w p' = Except.ok (w, []) := by
  cases hparse : parseDec v with
  | none =>
    simp [normalise_decimal, hparse] at h
  | some d =>
    simp only [normalise_decimal, hparse] at h
    cases d with
    | nan =>
      have hfd : format_decimal Dec.nan = Except.ok "NaN" := rfl
      rw [hfd] at h
      simp only [Except.map, Except.ok.injEq, Prod.mk.injEq] at h
      rw [← h.1]
      rfl
    | snan =>
      have hfd : format_decimal Dec.snan = Except.error () := rfl
      rw [hfd] at h
      simp [Except.map] at h
    | inf neg =>
      have hfd : format_decimal (Dec.inf neg) = Except.error () := rfl
      rw [hfd] at h
      simp [Except.map] at h
    | finite neg c e =>
      unfold format_decimal at h
      cases hquant : quantizeHalfEven (Dec.finite neg c e) (-6) with
      | error u =>
        rw [hquant] at h
        simp [Except.map] at h
      | ok dq =>
        rw [hquant] at h
        simp only [Except.map, Except.ok.injEq, Prod.mk.injEq] at h
        obtain ⟨q, rfl, _⟩ := quantize_val neg c e dq hquant
        have hqbound : ¬ 10 ^ 28 ≤ q := by
          simp only [quantizeHalfEven] at hquant
          by_cases hp : (-6 : Int) ≤ e
          · rw [if_pos hp] at hquant
            by_cases hov : 10 ^ 28 ≤ c * 10 ^ (e - (-6)).toNat
            · rw [if_pos hov] at hquant
              simp at hquant
            · rw [if_neg hov] at hquant
              simp only [Except.ok.injEq, Dec.finite.injEq] at hquant
              rw [hquant.2.1] at hov
              exact hov
          · rw [if_neg hp] at hquant
            by_cases hov : 10 ^ 28 ≤
                (if 5 * 10 ^ ((-6 - e).toNat - 1) < c % 10 ^ (-6 - e).toNat ∨
                    (c % 10 ^ (-6 - e).toNat = 5 * 10 ^ ((-6 - e).toNat - 1) ∧
                      c / 10 ^ (-6 - e).toNat % 2 = 1) then
                  c / 10 ^ (-6 - e).toNat + 1
                else c / 10 ^ (-6 - e).toNat)
            · rw [if_pos hov] at hquant
              simp at hquant
            · rw [if_neg hov] at hquant
              simp only [Except.ok.injEq, Dec.finite.injEq] at hquant
              rw [hquant.2.1] at hov
              exact hov
        have hwdef : w = decStr (normalizeDec (Dec.finite neg q (-6))) := h.1.symm
        have hshape : ∃ c' e', normalizeDec (Dec.finite neg q (-6)) = Dec.finite neg c' e' := by
          by_cases hq0 : q = 0
          · subst hq0
            exact ⟨0, 0, rfl⟩
          · refine ⟨(stripZeros q (-6)).1, (stripZeros q (-6)).2, ?_⟩
            show (if q = 0 then Dec.finite neg 0 0 else _) = _
            rw [if_neg hq0]
        obtain ⟨c', e', hnd⟩ := hshape
        have hrun2 : parseDec w = some (Dec.finite neg c' e') := by
          rw [hwdef, hnd]
          exact parseDec_decStr neg c' e'
        simp only [normalise_decimal, hrun2, format_decimal]
        rw [← hnd, quantize_normalize_stable neg q hqbound]
        simp only [Except.map]
        rw [← hwdef]



/-! ### Date idempotence: the canonical render re-parses via the first pattern -/

theorem mT_nil (f : Nat) : matchToksF (f + 1) [] [] = some [] := rfl

theorem mT_lit (f : Nat) (c x : Char) (ts : List Tok) (xs : List Char)
    (hx : x.toLower = c.toLower) (r : Option (List (Char × List Char)))
    (hcont : matchToksF f ts xs = r) :
    matchToksF (f + 1) (Tok.lit c :: ts) (x :: xs) = r := by
  have h1 : matchToksF (f + 1) (Tok.lit c :: ts) (x :: xs) =
      if x.toLower = c.toLower then matchToksF f ts xs else none := rfl
  rw [h1, if_pos hx, hcont]

theorem mT_dirY (f : Nat) (a b c d : Char) (ts : List Tok) (xs : List Char)
    (ha : a.isDigit = true) (hb : b.isDigit = true) (hc : c.isDigit = true)
    (hd : d.isDigit = true) (caps : List (Char × List Char))
    (hcont : matchToksF f ts xs = some caps) :
    matchToksF (f + 2) (Tok.dir 'Y' :: ts) (a :: b :: c :: d :: xs) =
      some (('Y', [a, b, c, d]) :: caps) := by
  have hcons : consumeAlt [Char.isDigit, Char.isDigit, Char.isDigit, Char.isDigit]
      (a :: b :: c :: d :: xs) = some ([a, b, c, d], xs) := by
    simp [consumeAlt, ha, hb, hc, hd]
  have h1 : matchToksF (f + 2) (Tok.dir 'Y' :: ts) (a :: b :: c :: d :: xs) =
      matchAltsF (f + 1) 'Y' (dirAlts 'Y') ts (a :: b :: c :: d :: xs) := rfl
  have h2 : matchAltsF (f + 1) 'Y' (dirAlts 'Y') ts (a :: b :: c :: d :: xs) =
      match matchToksF f ts xs with
      | some caps => some (('Y', [a, b, c, d]) :: caps)
      | none => matchAltsF f 'Y' [] ts (a :: b :: c :: d :: xs) := by
    rw [show dirAlts 'Y' = [[Char.isDigit, Char.isDigit, Char.isDigit, Char.isDigit]] from rfl,
      matchAltsF, hcons]
  rw [h1, h2, hcont]

/-- month 10-12 first-alternative step -/
theorem mT_m1 (f : Nat) (u : Char) (ts : List Tok) (xs : List Char)
    (h0 : '0' ≤ u) (h2 : u ≤ '2') (caps : List (Char × List Char))
    (hcont : matchToksF f ts xs = some caps) :
    matchToksF (f + 2) (Tok.dir 'm' :: ts) ('1' :: u :: xs) =
      some (('m', ['1', u]) :: caps) := by
  have hcons : consumeAlt [chIs '1', chRange '0' '2'] ('1' :: u :: xs) =
      some (['1', u], xs) := by
    simp [consumeAlt, chIs, chRange, h0, h2]
  have h1 : matchToksF (f + 2) (Tok.dir 'm' :: ts) ('1' :: u :: xs) =
      matchAltsF (f + 1) 'm' (dirAlts 'm') ts ('1' :: u :: xs) := rfl
  have hstep : matchAltsF (f + 1) 'm' (dirAlts 'm') ts ('1' :: u :: xs) =
      match matchToksF f ts xs with
      | some caps => some (('m', ['1', u]) :: caps)
      | none => matchAltsF f 'm' [[chIs '0', chRange '1' '9'], [chRange '1' '9']] ts ('1' :: u :: xs) := by
    rw [show dirAlts 'm' = [[chIs '1', chRange '0' '2'], [chIs '0', chRange '1' '9'],
      [chRange '1' '9']] from rfl, matchAltsF, hcons]
  rw [h1, hstep, hcont]

/-- month 1-9 second-alternative step -/
theorem mT_m0 (f : Nat) (u : Char) (ts : List Tok) (xs : List Char)
    (h1u : '1' ≤ u) (h9 : u ≤ '9') (caps : List (Char × List Char))
    (hcont : matchToksF f ts xs = some caps) :
    matchToksF (f + 3) (Tok.dir 'm' :: ts) ('0' :: u :: xs) =
      some (('m', ['0', u]) :: caps) := by
  have hfail : consumeAlt [chIs '1', chRange '0' '2'] ('0' :: u :: xs) = none := by
    simp [consumeAlt, chIs]
  have hcons : consumeAlt [chIs '0', chRange '1' '9'] ('0' :: u :: xs) =
      some (['0', u], xs) := by
    simp [consumeAlt, chIs, chRange, h1u, h9]
  have h1 : matchToksF (f + 3) (Tok.dir 'm' :: ts) ('0' :: u :: xs) =
      matchAltsF (f + 2) 'm' (dirAlts 'm') ts ('0' :: u :: xs) := rfl
  have hs1 : matchAltsF (f + 2) 'm' (dirAlts 'm') ts ('0' :: u :: xs) =
      matchAltsF (f + 1) 'm' [[chIs '0', chRange '1' '9'], [chRange '1' '9']] ts ('0' :: u :: xs) := by
    rw [show dirAlts 'm' = [[chIs '1', chRange '0' '2'], [chIs '0', chRange '1' '9'],
      [chRange '1' '9']] from rfl, matchAltsF, hfail]
  have hs2 : matchAltsF (f + 1) 'm' [[chIs '0', chRange '1' '9'], [chRange '1' '9']] ts ('0' :: u :: xs) =
      match matchToksF f ts xs with
      | some caps => some (('m', ['0', u]) :: caps)
      | none => matchAltsF f 'm' [[chRange '1' '9']] ts ('0' :: u :: xs) := by
    rw [matchAltsF, hcons]
  rw [h1, hs1, hs2, hcont]

/-- day 30/31 first-alternative step -/
theorem mT_d3 (f : Nat) (u : Char) (ts : List Tok) (xs : List Char)
    (h0 : '0' ≤ u) (h1u : u ≤ '1') (caps : List (Char × List Char))
    (hcont : matchToksF f ts xs = some caps) :
    matchToksF (f + 2) (Tok.dir 'd' :: ts) ('3' :: u :: xs) =
      some (('d', ['3', u]) :: caps) := by
  have hcons : consumeAlt [chIs '3', chRange '0' '1'] ('3' :: u :: xs) =
      some (['3', u], xs) := by
    simp [consumeAlt, chIs, chRange, h0, h1u]
  have h1 : matchToksF (f + 2) (Tok.dir 'd' :: ts) ('3' :: u :: xs) =
      matchAltsF (f + 1) 'd' (dirAlts 'd') ts ('3' :: u :: xs) := rfl
  have hstep : matchAltsF (f + 1) 'd' (dirAlts 'd') ts ('3' :: u :: xs) =
      match matchToksF f ts xs with
      | some caps => some (('d', ['3', u]) :: caps)
      | none => matchAltsF f 'd' [[chRange '1' '2', Char.isDigit], [chIs '0', chRange '1' '9'],
          [chRange '1' '9']] ts ('3' :: u :: xs) := by
    rw [show dirAlts 'd' = [[chIs '3', chRange '0' '1'], [chRange '1' '2', Char.isDigit],
      [chIs '0', chRange '1' '9'], [chRange '1' '9']] from rfl, matchAltsF, hcons]
  rw [h1, hstep, hcont]

/-- day 10-29 second-alternative step -/
theorem mT_d12 (f : Nat) (t u : Char) (ts : List Tok) (xs : List Char)
    (ht : t = '1' ∨ t = '2') (hu : u.isDigit = true) (caps : List (Char × List Char))
    (hcont : matchToksF f ts xs = some caps) :
    matchToksF (f + 3) (Tok.dir 'd' :: ts) (t :: u :: xs) =
      some (('d', [t, u]) :: caps) := by
  have hfail : consumeAlt [chIs '3', chRange '0' '1'] (t :: u :: xs) = none := by
    rcases ht with rfl | rfl <;> simp [consumeAlt, chIs]
  have hcons : consumeAlt [chRange '1' '2', Char.isDigit] (t :: u :: xs) =
      some ([t, u], xs) := by
    rcases ht with rfl | rfl <;> simp [consumeAlt, chRange, hu]
  have h1 : matchToksF (f + 3) (Tok.dir 'd' :: ts) (t :: u :: xs) =
      matchAltsF (f + 2) 'd' (dirAlts 'd') ts (t :: u :: xs) := rfl
  have hs1 : matchAltsF (f + 2) 'd' (dirAlts 'd') ts (t :: u :: xs) =
      matchAltsF (f + 1) 'd' [[chRange '1' '2', Char.isDigit], [chIs '0', chRange '1' '9'],
        [chRange '1' '9']] ts (t :: u :: xs) := by
    rw [show dirAlts 'd' = [[chIs '3', chRange '0' '1'], [chRange '1' '2', Char.isDigit],
      [chIs '0', chRange '1' '9'], [chRange '1' '9']] from rfl, matchAltsF, hfail]
  have hs2 : matchAltsF (f + 1) 'd' [[chRange '1' '2', Char.isDigit], [chIs '0', chRange '1' '9'],
      [chRange '1' '9']] ts (t :: u :: xs) =
      match matchToksF f ts xs with
      | some caps => some (('d', [t, u]) :: caps)
      | none => matchAltsF f 'd' [[chIs '0', chRange '1' '9'], [chRange '1' '9']] ts
          (t :: u :: xs) := by
    rw [matchAltsF, hcons]
  rw [h1, hs1, hs2, hcont]

/-- day 1-9 third-alternative step -/
theorem mT_d0 (f : Nat) (u : Char) (ts : List Tok) (xs : List Char)
    (h1u : '1' ≤ u) (h9 : u ≤ '9') (caps : List (Char × List Char))
    (hcont : matchToksF f ts xs = some caps) :
    matchToksF (f + 4) (Tok.dir 'd' :: ts) ('0' :: u :: xs) =
      some (('d', ['0', u]) :: caps) := by
  have hf1 : consumeAlt [chIs '3', chRange '0' '1'] ('0' :: u :: xs) = none := by
    simp [consumeAlt, chIs]
  have hf2 : consumeAlt [chRange '1' '2', Char.isDigit] ('0' :: u :: xs) = none := by
    simp [consumeAlt, chRange]
  have hcons : consumeAlt [chIs '0', chRange '1' '9'] ('0' :: u :: xs) =
      some (['0', u], xs) := by
    simp [consumeAlt, chIs, chRange, h1u, h9]
  have h1 : matchToksF (f + 4) (Tok.dir 'd' :: ts) ('0' :: u :: xs) =
      matchAltsF (f + 3) 'd' (dirAlts 'd') ts ('0' :: u :: xs) := rfl
  have hs1 : matchAltsF (f + 3) 'd' (dirAlts 'd') ts ('0' :: u :: xs) =
      matchAltsF (f + 2) 'd' [[chRange '1' '2', Char.isDigit], [chIs '0', chRange '1' '9'],
        [chRange '1' '9']] ts ('0' :: u :: xs) := by
    rw [show dirAlts 'd' = [[chIs '3', chRange '0' '1'], [chRange '1' '2', Char.isDigit],
      [chIs '0', chRange '1' '9'], [chRange '1' '9']] from rfl, matchAltsF, hf1]
  have hs2 : matchAltsF (f + 2) 'd' [[chRange '1' '2', Char.isDigit], [chIs '0', chRange '1' '9'],
      [chRange '1' '9']] ts ('0' :: u :: xs) =
      matchAltsF (f + 1) 'd' [[chIs '0', chRange '1' '9'], [chRange '1' '9']] ts
        ('0' :: u :: xs) := by
    rw [matchAltsF, hf2]
  have hs3 : matchAltsF (f + 1) 'd' [[chIs '0', chRange '1' '9'], [chRange '1' '9']] ts
      ('0' :: u :: xs) =
      match matchToksF f ts xs with
      | some caps => some (('d', ['0', u]) :: caps)
      | none => matchAltsF f 'd' [[chRange '1' '9']] ts ('0' :: u :: xs) := by
    rw [matchAltsF, hcons]
  rw [h1, hs1, hs2, hs3, hcont]

theorem natDigitsF_len : ∀ fuel n k, n < 10 ^ k → 0 < k → (natDigitsF fuel n).length ≤ k := by
  intro fuel
  induction fuel with
  | zero => intro n k _ _; simp [natDigitsF]
  | succ f ih =>
    intro n k hn hk
    by_cases h10 : n < 10
    · rw [natDigitsF, if_pos h10]
      simpa using hk
    · rw [natDigitsF, if_neg h10]
      have hk2 : 2 ≤ k := by
        by_contra hc
        have : k = 1 := by omega
        rw [this] at hn
        simp at hn
        omega
      have hdiv : n / 10 < 10 ^ (k - 1) := by
        rw [Nat.div_lt_iff_lt_mul (by omega)]
        calc n < 10 ^ k := hn
        _ = 10 ^ (k - 1) * 10 := by
            rw [← pow_succ]
            congr 1
            omega
      have := ih (n / 10) (k - 1) hdiv (by omega)
      simp only [List.length_append, List.length_cons, List.length_nil]
      omega

theorem digitSet_isDigit : ∀ c ∈ digitSet, c.isDigit = true := by decide

theorem list_len4 {α : Type} (l : List α) (h : l.length = 4) :
    ∃ a b c d, l = [a, b, c, d] := by
  match l with
  | [a, b, c, d] => exact ⟨a, b, c, d, rfl⟩
  | [] => simp at h
  | [_] => simp at h
  | [_, _] => simp at h
  | [_, _, _] => simp at h
  | _ :: _ :: _ :: _ :: _ :: _ =>
    simp only [List.length_cons] at h
    omega

theorem padFour_year (y : Nat) (h2 : y ≤ 9999) :
    ∃ a b c d, padDigits 4 (natDigits y) = [a, b, c, d] ∧
      a.isDigit = true ∧ b.isDigit = true ∧ c.isDigit = true ∧ d.isDigit = true := by
  have hlen : (natDigits y).length ≤ 4 := natDigitsF_len (y + 1) y 4 (by omega) (by omega)
  have hlen4 : (padDigits 4 (natDigits y)).length = 4 := by
    simp only [padDigits, List.length_append, List.length_replicate]
    omega
  have hmem : ∀ c ∈ padDigits 4 (natDigits y), c.isDigit = true := by
    intro c hc
    rcases List.mem_append.mp hc with h1 | h2
    · have := List.eq_of_mem_replicate h1
      rw [this]; decide
    · exact digitSet_isDigit c (natDigitsF_mem (y + 1) y c h2)
  obtain ⟨a, b, c, d, hl⟩ := list_len4 _ hlen4
  refine ⟨a, b, c, d, hl, ?_, ?_, ?_, ?_⟩ <;>
    [exact hmem a (by rw [hl]; simp); exact hmem b (by rw [hl]; simp);
     exact hmem c (by rw [hl]; simp); exact hmem d (by rw [hl]; simp)]

theorem padTwo_small (n : Nat) (h1 : 1 ≤ n) (h2 : n ≤ 9) :
    padDigits 2 (natDigits n) = ['0', digitChar n] ∧ '1' ≤ digitChar n ∧ digitChar n ≤ '9' := by
  interval_cases n <;> exact ⟨rfl, by decide, by decide⟩

theorem padTwo_month10 (n : Nat) (h1 : 10 ≤ n) (h2 : n ≤ 12) :
    padDigits 2 (natDigits n) = ['1', digitChar (n % 10)] ∧
      '0' ≤ digitChar (n % 10) ∧ digitChar (n % 10) ≤ '2' := by
  interval_cases n <;> exact ⟨rfl, by decide, by decide⟩

theorem padTwo_teens (n : Nat) (h1 : 10 ≤ n) (h2 : n ≤ 29) :
    padDigits 2 (natDigits n) = [digitChar (n / 10), digitChar (n % 10)] ∧
      (digitChar (n / 10) = '1' ∨ digitChar (n / 10) = '2') ∧
      (digitChar (n % 10)).isDigit = true := by
  interval_cases n <;> exact ⟨rfl, by decide, by decide⟩

theorem padTwo_thirty (n : Nat) (h1 : 30 ≤ n) (h2 : n ≤ 31) :
    padDigits 2 (natDigits n) = ['3', digitChar (n % 10)] ∧
      '0' ≤ digitChar (n % 10) ∧ digitChar (n % 10) ≤ '1' := by
  interval_cases n <;> exact ⟨rfl, by decide, by decide⟩

theorem digitVal_padDigits (k : Nat) (ds : List Char) :
    digitVal (padDigits k ds) = digitVal ds :=
  digitVal_replicate_zero (k - ds.length) ds

/-- The rendered `YYYY-MM-DD` character list. -/
def ymdChars (y m d : Nat) : List Char :=
  padDigits 4 (natDigits y) ++ '-' :: (padDigits 2 (natDigits m) ++ '-' :: padDigits 2 (natDigits d))

theorem matchYMD (y m d : Nat) (hy2 : y ≤ 9999)
    (hm1 : 1 ≤ m) (hm2 : m ≤ 12) (hd1 : 1 ≤ d) (hd2 : d ≤ 31) :
    matchToks [Tok.dir 'Y', Tok.lit '-', Tok.dir 'm', Tok.lit '-', Tok.dir 'd'] (ymdChars y m d) =
      some [('Y', padDigits 4 (natDigits y)), ('m', padDigits 2 (natDigits m)),
        ('d', padDigits 2 (natDigits d))] := by
  obtain ⟨a, b, c, dd, hy4, ha, hb, hc, hdd⟩ := padFour_year y hy2
  have hdash : ('-' : Char).toLower = ('-' : Char).toLower := rfl
  -- the day tail, fuel-generic continuation
  have hday : ∀ g : Nat, matchToksF (g + 5) [Tok.dir 'd'] (padDigits 2 (natDigits d)) =
      some [('d', padDigits 2 (natDigits d))] := by
    intro g
    by_cases hd9 : d ≤ 9
    · obtain ⟨hpad, hu1, hu9⟩ := padTwo_small d hd1 hd9
      rw [hpad]
      exact mT_d0 (g + 1) (digitChar d) [] [] hu1 hu9 [] (mT_nil g)
    · by_cases hd29 : d ≤ 29
      · obtain ⟨hpad, ht, hu⟩ := padTwo_teens d (by omega) hd29
        rw [hpad]
        have := mT_d12 (g + 2) (digitChar (d / 10)) (digitChar (d % 10)) [] [] ht hu []
          (mT_nil (g + 1))
        exact this
      · obtain ⟨hpad, hu0, hu1⟩ := padTwo_thirty d (by omega) hd2
        rw [hpad]
        exact mT_d3 (g + 3) (digitChar (d % 10)) [] [] hu0 hu1 [] (mT_nil (g + 2))
  -- the month-and-day tail
  have hmd : ∀ g : Nat, matchToksF (g + 9) [Tok.dir 'm', Tok.lit '-', Tok.dir 'd']
      (padDigits 2 (natDigits m) ++ '-' :: padDigits 2 (natDigits d)) =
      some [('m', padDigits 2 (natDigits m)), ('d', padDigits 2 (natDigits d))] := by
    intro g
    by_cases hm9 : m ≤ 9
    · obtain ⟨hpad, hu1, hu9⟩ := padTwo_small m hm1 hm9
      rw [hpad]
      exact mT_m0 (g + 6) (digitChar m) [Tok.lit '-', Tok.dir 'd'] _ hu1 hu9 _
        (mT_lit (g + 5) '-' '-' [Tok.dir 'd'] _ hdash _ (hday g))
    · obtain ⟨hpad, hu0, hu2⟩ := padTwo_month10 m (by omega) hm2
      rw [hpad]
      exact mT_m1 (g + 7) (digitChar (m % 10)) [Tok.lit '-', Tok.dir 'd'] _ hu0 hu2 _
        (mT_lit (g + 6) '-' '-' [Tok.dir 'd'] _ hdash _ (hday (g + 1)))
  -- length of the input is 10
  have hxlen : (ymdChars y m d).length = 10 := by
    unfold ymdChars
    rw [hy4]
    have hm' : (padDigits 2 (natDigits m)).length = 2 := by
      by_cases hm9 : m ≤ 9
      · rw [(padTwo_small m hm1 hm9).1]; rfl
      · rw [(padTwo_month10 m (by omega) hm2).1]; rfl
    have hd' : (padDigits 2 (natDigits d)).length = 2 := by
      by_cases hd9 : d ≤ 9
      · rw [(padTwo_small d hd1 hd9).1]; rfl
      · by_cases hd29 : d ≤ 29
        · rw [(padTwo_teens d (by omega) hd29).1]; rfl
        · rw [(padTwo_thirty d (by omega) hd2).1]; rfl
    simp only [List.length_append, List.length_cons]
    rw [hm', hd']
    rfl
  have hfuel : matchFuel [Tok.dir 'Y', Tok.lit '-', Tok.dir 'm', Tok.lit '-', Tok.dir 'd']
      (ymdChars y m d) = 96 := by
    unfold matchFuel
    rw [hxlen]
    rfl
  rw [matchToks, hfuel]
  have hxs : ymdChars y m d = a :: b :: c :: dd ::
      ('-' :: (padDigits 2 (natDigits m) ++ '-' :: padDigits 2 (natDigits d))) := by
    unfold ymdChars
    rw [hy4]
    rfl
  rw [hxs, hy4]
  exact mT_dirY 94 a b c dd _ _ ha hb hc hdd _
    (mT_lit 93 '-' '-' _ _ hdash _ (hmd 84))

theorem findSome_exists {α β : Type} (f : α → Option β) :
    ∀ (l : List α) (b : β), l.findSome? f = some b → ∃ a ∈ l, f a = some b := by
  intro l
  induction l with
  | nil => intro b h; simp [List.findSome?] at h
  | cons a as ih =>
    intro b h
    rw [List.findSome?] at h
    cases hf : f a with
    | some c =>
      rw [hf] at h
      refine ⟨a, by simp, ?_⟩
      rw [hf]
      exact h
    | none =>
      rw [hf] at h
      obtain ⟨x, hx, hfx⟩ := ih b h
      exact ⟨x, by simp [hx], hfx⟩

/-- Every successful date parse passed the datetime-constructor bounds. -/
theorem tryDatePatterns_bounds (v : List Char) (dt : DT) (h : tryDatePatterns v = some dt) :
    1 ≤ dt.year ∧ dt.year ≤ 9999 ∧ 1 ≤ dt.month ∧ dt.month ≤ 12 ∧
      1 ≤ dt.day ∧ dt.day ≤ daysInMonth dt.year dt.month := by
  unfold tryDatePatterns at h
  obtain ⟨p, _, hsp⟩ := findSome_exists _ datePatterns dt h
  unfold strptime at hsp
  obtain ⟨caps, _, hbd⟩ := Option.bind_eq_some.mp hsp
  simp only [buildDT] at hbd
  split at hbd
  · rename_i hcond
    simp only [Option.some.injEq] at hbd
    rw [← hbd]
    exact ⟨hcond.1, hcond.2.1, hcond.2.2.1, hcond.2.2.2.1, hcond.2.2.2.2.1, hcond.2.2.2.2.2.1⟩
  · simp at hbd

theorem renderDate_chars (dt : DT) (c : Char) (hc : c ∈ (renderDate dt).toList) :
    c ∈ digitSet ∨ c = '-' := by
  have : (renderDate dt).toList = padDigits 4 (natDigits dt.year) ++ '-' ::
      (padDigits 2 (natDigits dt.month) ++ '-' :: padDigits 2 (natDigits dt.day)) := by
    simp [renderDate]
  rw [this] at hc
  have hpad : ∀ (k n : Nat), c ∈ padDigits k (natDigits n) → c ∈ digitSet := by
    intro k n hk
    rcases List.mem_append.mp hk with h1 | h2
    · rw [List.eq_of_mem_replicate h1]; decide
    · exact natDigitsF_mem (n + 1) n c h2
  rcases List.mem_append.mp hc with h1 | h2
  · exact Or.inl (hpad 4 dt.year h1)
  · rcases List.mem_cons.mp h2 with h3 | h4
    · exact Or.inr h3
    · rcases List.mem_append.mp h4 with h5 | h6
      · exact Or.inl (hpad 2 dt.month h5)
      · rcases List.mem_cons.mp h6 with h7 | h8
        · exact Or.inr h7
        · exact Or.inl (hpad 2 dt.day h8)

theorem stripQuotes_renderDate (dt : DT) :
    stripQuotes (renderDate dt) = (renderDate dt).toList := by
  have hq : ∀ c ∈ (renderDate dt).toList,
      (decide (c = ' ' ∨ c = '"' ∨ c = ',') : Bool) = false := by
    intro c hc
    rcases renderDate_chars dt c hc with h | h
    · simp only [digitSet, List.mem_cons, List.not_mem_nil, or_false] at h
      rcases h with rfl | rfl | rfl | rfl | rfl | rfl | rfl | rfl | rfl | rfl <;> decide
    · rw [h]; decide
  simp only [stripQuotes]
  rw [dropWhile_head_false _ _ hq,
    dropWhile_head_false _ _ (fun c hc => hq c (List.mem_reverse.mp hc)),
    List.reverse_reverse]

theorem buildDT_ymd (y m d : Nat) (y4 m2 d2 : List Char)
    (hvy : digitVal y4 = y) (hvm : digitVal m2 = m) (hvd : digitVal d2 = d)
    (hy1 : 1 ≤ y) (hy2 : y ≤ 9999) (hm1 : 1 ≤ m) (hm2 : m ≤ 12)
    (hd1 : 1 ≤ d) (hd2 : d ≤ daysInMonth y m) :
    buildDT [('Y', y4), ('m', m2), ('d', d2)] = some ⟨y, m, d, 0, 0, 0⟩ := by
  have lY : List.lookup 'Y' [('Y', y4), ('m', m2), ('d', d2)] = some y4 := rfl
  have lm : List.lookup 'm' [('Y', y4), ('m', m2), ('d', d2)] = some m2 := rfl
  have ld : List.lookup 'd' [('Y', y4), ('m', m2), ('d', d2)] = some d2 := rfl
  have lH : List.lookup 'H' [('Y', y4), ('m', m2), ('d', d2)] = none := rfl
  have lM : List.lookup 'M' [('Y', y4), ('m', m2), ('d', d2)] = none := rfl
  have lS : List.lookup 'S' [('Y', y4), ('m', m2), ('d', d2)] = none := rfl
  simp only [buildDT, lY, lm, ld, lH, lM, lS, hvy, hvm, hvd]
  rw [if_pos]
  exact ⟨hy1, hy2, hm1, hm2, hd1, hd2, by omega, by omega, by omega⟩

/-- The date normaliser is idempotent on its own successful output. -/
theorem normalise_date_stable (c c' f f' v w : String)
    (h : normalise_date c v f = (w, [])) :
    normalise_date c' w f' = (w, []) := by
  simp only [normalise_date] at h
  cases htry : tryDatePatterns (stripQuotes v) with
  | none =>
    rw [htry] at h
    simp at h
  | some dt =>
    rw [htry] at h
    obtain ⟨hy1, hy2, hm1, hm2, hd1, hd2⟩ := tryDatePatterns_bounds _ _ htry
    have hw : w = renderDate dt := by
      have := congrArg Prod.fst h
      exact this.symm
    have hd31 : dt.day ≤ 31 := by
      have : daysInMonth dt.year dt.month ≤ 31 := by
        unfold daysInMonth
        split
        · split <;> omega
        · split <;> omega
      omega
    have hxs : (renderDate dt).toList = ymdChars dt.year dt.month dt.day := by
      simp [renderDate, ymdChars]
    have hmatch : matchToks (patToks "%Y-%m-%d".toList) ((renderDate dt).toList) =
        some [('Y', padDigits 4 (natDigits dt.year)), ('m', padDigits 2 (natDigits dt.month)),
          ('d', padDigits 2 (natDigits dt.day))] := by
      rw [hxs]
      rw [show patToks "%Y-%m-%d".toList =
        [Tok.dir 'Y', Tok.lit '-', Tok.dir 'm', Tok.lit '-', Tok.dir 'd'] from rfl]
      exact matchYMD dt.year dt.month dt.day hy2 hm1 hm2 hd1 hd31
    have hsp : strptime "%Y-%m-%d" ((renderDate dt).toList) =
        some ⟨dt.year, dt.month, dt.day, 0, 0, 0⟩ := by
      unfold strptime
      rw [hmatch]
      exact buildDT_ymd dt.year dt.month dt.day _ _ _
        (by rw [digitVal_padDigits, digitVal_natDigits])
        (by rw [digitVal_padDigits, digitVal_natDigits])
        (by rw [digitVal_padDigits, digitVal_natDigits])
        hy1 hy2 hm1 hm2 hd1 hd2
    have htry2 : tryDatePatterns ((renderDate dt).toList) =
        some ⟨dt.year, dt.month, dt.day, 0, 0, 0⟩ := by
      unfold tryDatePatterns
      rw [show datePatterns = "%Y-%m-%d" :: datePatterns.tail from rfl]
      exact findSome_head _ _ _ _ hsp
    have hrender : renderDate ⟨dt.year, dt.month, dt.day, 0, 0, 0⟩ = renderDate dt := rfl
    simp only [normalise_date]
    rw [hw, stripQuotes_renderDate, htry2]
    rw [show (renderDate dt, ([] : List Issue)) = (renderDate ⟨dt.year, dt.month, dt.day, 0, 0, 0⟩, ([] : List Issue)) from by rw [hrender]]

/-! ### Idempotence helpers for the remaining scalar branches -/

theorem format_integer_not_sentinel (n : Int) : pyLower (format_integer n) ∉ sentinels := by
  obtain ⟨c, hc, hd⟩ := intDigits_has_digit n
  exact not_sentinel_of_digit (format_integer n) c hc hd

theorem normalise_integer_format (g : String) (n : Int) :
    normalise_integer g (format_integer n) = (format_integer n, []) := by
  simp only [normalise_integer, stripDotZeros_intDigits, pyInt_format_integer]

theorem normalise_integer_out (f v w : String) (iss : List Issue)
    (h : normalise_integer f v = (w, iss)) (hw : w ≠ "") : ∃ n, w = format_integer n := by
  cases hp : pyInt (stripDotZeros v) with
  | none =>
    simp only [normalise_integer, hp] at h
    exact absurd (congrArg Prod.fst h).symm hw
  | some n =>
    simp only [normalise_integer, hp] at h
    exact ⟨n, (congrArg Prod.fst h).symm⟩

theorem collapseWs_idem (s : String) : collapseWs (collapseWs s) = collapseWs s := by
  unfold collapseWs
  congr 1
  have : ∀ l : List Char, (l.filter (fun c => !isPyWs c)).filter (fun c => !isPyWs c) =
      l.filter (fun c => !isPyWs c) := by
    intro l
    induction l with
    | nil => rfl
    | cons c t ih =>
      by_cases hc : isPyWs c
      · simp [List.filter_cons, hc, ih]
      · simp [List.filter_cons, hc, ih]
  exact this _

theorem normalise_uri_stable (uv : String → Bool) (f g v w : String) (iss : List Issue)
    (h : normalise_uri uv f v = (w, iss)) (hw : w ≠ "") :
    normalise_uri uv g w = (w, []) := by
  simp only [normalise_uri] at h
  by_cases hval : uv (collapseWs v) = true
  · rw [if_pos hval] at h
    have hw' : w = collapseWs v := (congrArg Prod.fst h).symm
    simp only [normalise_uri]
    rw [hw', collapseWs_idem, if_pos hval]
  · rw [if_neg hval] at h
    exact absurd (congrArg Prod.fst h).symm hw

theorem decStr_not_sentinel (neg : Bool) (c : Nat) (e : Int) :
    pyLower (decStr (Dec.finite neg c e)) ∉ sentinels := by
  obtain ⟨d0, bt, hb, hd⟩ := decBody_head c e
  refine not_sentinel_of_digit _ d0 ?_ hd
  show d0 ∈ (if neg then ['-'] else []) ++ decBody c e
  exact List.mem_append.mpr (Or.inr (by rw [hb]; simp))

theorem renderDate_not_sentinel (dt : DT) : pyLower (renderDate dt) ∉ sentinels := by
  obtain ⟨d0, dtl, hds⟩ : ∃ d0 dtl, natDigits dt.year = d0 :: dtl := by
    cases h : natDigits dt.year with
    | nil => exact absurd h (natDigits_ne_nil _)
    | cons a b => exact ⟨a, b, rfl⟩
  refine not_sentinel_of_digit _ d0 ?_ (natDigits_mem _ d0 (by rw [hds]; simp))
  show d0 ∈ padDigits 4 (natDigits dt.year) ++ '-' :: padDigits 2 (natDigits dt.month)
    ++ '-' :: padDigits 2 (natDigits dt.day)
  refine List.mem_append.mpr (Or.inl (List.mem_append.mpr (Or.inl ?_)))
  exact List.mem_append.mpr (Or.inr (by rw [hds]; simp))

theorem normalise_date_out (c f v w : String) (iss : List Issue)
    (h : normalise_date c v f = (w, iss)) (hw : w ≠ "") :
    ∃ dt, w = renderDate dt ∧ iss = [] := by
  simp only [normalise_date] at h
  cases htry : tryDatePatterns (stripQuotes v) with
  | none =>
    rw [htry] at h
    exact absurd (congrArg Prod.fst h).symm hw
  | some dt =>
    rw [htry] at h
    exact ⟨dt, (congrArg Prod.fst h).symm, (congrArg Prod.snd h).symm⟩

theorem normalise_decimal_clean (f v : String) (p : Nat) (w : String) (iss : List Issue)
    (h : normalise_decimal f v p = Except.ok (w, iss)) (hw : w ≠ "") :
    normalise_decimal f v p = Except.ok (w, []) ∧ pyLower w ∉ sentinels := by
  cases hp : parseDec v with
  | none =>
    simp only [normalise_decimal, hp] at h
    simp only [Except.ok.injEq, Prod.mk.injEq] at h
    exact absurd h.1.symm hw
  | some d =>
    simp only [normalise_decimal, hp] at h ⊢
    cases hf : format_decimal d with
    | error u =>
      rw [hf] at h
      simp [Except.map] at h
    | ok s =>
      rw [hf] at h
      simp only [Except.map, Except.ok.injEq, Prod.mk.injEq] at h
      refine ⟨by simp [Except.map, h.1], ?_⟩
      cases d with
      | nan =>
        have hs : s = "NaN" := by
          have : format_decimal Dec.nan = Except.ok "NaN" := rfl
          rw [this] at hf
          exact (Except.ok.inj hf).symm
        rw [← h.1, hs]
        decide
      | snan => exact absurd hf (by simp [format_decimal, quantizeHalfEven, Except.map])
      | inf neg => exact absurd hf (by simp [format_decimal, quantizeHalfEven, Except.map])
      | finite neg c e =>
        unfold format_decimal at hf
        cases hq : quantizeHalfEven (Dec.finite neg c e) (-6) with
        | error u => rw [hq] at hf; simp [Except.map] at hf
        | ok dq =>
          rw [hq] at hf
          simp only [Except.map, Except.ok.injEq] at hf
          obtain ⟨q, rfl, _⟩ := quantize_val neg c e dq hq
          have hshape : ∃ c' e', normalizeDec (Dec.finite neg q (-6)) = Dec.finite neg c' e' := by
            by_cases hq0 : q = 0
            · subst hq0; exact ⟨0, 0, rfl⟩
            · refine ⟨(stripZeros q (-6)).1, (stripZeros q (-6)).2, ?_⟩
              show (if q = 0 then Dec.finite neg 0 0 else _) = _
              rw [if_neg hq0]
          obtain ⟨c', e', hnd⟩ := hshape
          rw [← h.1, ← hf, hnd]
          exact decStr_not_sentinel neg c' e'

/-- C9 as stated is false on two counts: a schema strip regex applies
again on the second pass (`^ab` turns the first-pass output "ab" into
""), and a patch-table hit returns the organisation's *raw*
`opendatacommunities` URI, which on the second pass resolves through the
reference-table keys to its lower-cased form. -/
theorem c9_counterexample :
    (normalise urlTrue [] abField "abab" = Except.ok ("ab", []) ∧
      normalise urlTrue [] abField "ab" = Except.ok ("", []) ∧ ("ab" : String) ≠ "") ∧
    (normalise urlTrue orgIdxDemo orgField "Ashford DC" = Except.ok ("HTTP://X/A", []) ∧
      normalise urlTrue orgIdxDemo orgField "HTTP://X/A" = Except.ok ("http://x/a", []) ∧
      ("http://x/a" : String) ≠ "HTTP://X/A") := by
  refine ⟨⟨?_, ?_, by decide⟩, ⟨?_, ?_, by decide⟩⟩ <;> rfl

/-- C9 (amended): for every non-geometry field whose schema declares no
strip patterns, a successful `normalise` output value is a fixpoint of
`normalise` — provided, for the `OrganisationURI` branch, that the index
maps the output back to itself (true for reference-table resolutions,
which return index values that are themselves lower-cased keys, but not
for patch-table resolutions returning a raw mixed-case URI) and the
output is not a null sentinel, and, for the uri branch, that the
validated collapsed value is not a null sentinel. -/
theorem c9_amended (uv : String → Bool) (idx : List (String × String)) (f : FieldDef)
    (v w : String) (iss : List Issue)
    (hstrip : f.strip = [])
    (h : normalise uv idx f v = Except.ok (w, iss))
    (horg : f.name = "OrganisationURI" → w ≠ "" →
      List.lookup (lower_uri w) idx = some w ∧ pyLower w ∉ sentinels)
    (huri : f.name ≠ "OrganisationURI" → f.ftype ≠ "integer" → f.ftype ≠ "number" →
      f.format = "uri" → w ≠ "" → pyLower w ∉ sentinels) :
    normalise uv idx f w = Except.ok (w, []) := by
  by_cases hw0 : w = ""
  · subst hw0
    unfold normalise
    rw [if_pos (by decide : pyLower "" ∈ sentinels)]
  · by_cases hsent : pyLower v ∈ sentinels
    · unfold normalise at h
      rw [if_pos hsent] at h
      simp only [Except.ok.injEq, Prod.mk.injEq] at h
      exact absurd h.1.symm hw0
    · simp only [normalise, hstrip, List.foldl_nil, if_neg hsent] at h
      by_cases horgn : f.name = "OrganisationURI"
      · rw [if_pos horgn] at h
        obtain ⟨hlk, hns⟩ := horg horgn hw0
        simp only [normalise, hstrip, List.foldl_nil]
        rw [if_neg hns, if_pos horgn]
        simp only [normalise_organisation_uri, hlk]
      · rw [if_neg horgn] at h
        by_cases hint : f.ftype = "integer"
        · rw [if_pos hint] at h
          have hin : normalise_integer f.name v = (w, iss) := Except.ok.inj h
          obtain ⟨n, rfl⟩ := normalise_integer_out f.name v w iss hin hw0
          simp only [normalise, hstrip, List.foldl_nil]
          rw [if_neg (format_integer_not_sentinel n), if_neg horgn, if_pos hint,
            normalise_integer_format f.name n]
        · rw [if_neg hint] at h
          by_cases hnum : f.ftype = "number"
          · rw [if_pos hnum] at h
            obtain ⟨hclean, hns⟩ := normalise_decimal_clean f.name v f.precision w iss h hw0
            simp only [normalise, hstrip, List.foldl_nil]
            rw [if_neg hns, if_neg horgn, if_neg hint, if_pos hnum]
            exact normalise_decimal_stable f.name f.name v w f.precision f.precision hclean
          · rw [if_neg hnum] at h
            by_cases hfmt : f.format = "uri"
            · rw [if_pos hfmt] at h
              have hun : normalise_uri uv f.name v = (w, iss) := Except.ok.inj h
              have hns := huri horgn hint hnum hfmt hw0
              simp only [normalise, hstrip, List.foldl_nil]
              rw [if_neg hns, if_neg horgn, if_neg hint, if_neg hnum, if_pos hfmt,
                normalise_uri_stable uv f.name f.name v w iss hun hw0]
            · rw [if_neg hfmt] at h
              by_cases hdate : f.ftype = "date"
              · rw [if_pos hdate] at h
                have hdn : normalise_date f.name v f.name = (w, iss) := Except.ok.inj h
                obtain ⟨dt, hwdt, hiss⟩ := normalise_date_out f.name f.name v w iss hdn hw0
                have hns : pyLower w ∉ sentinels := by
                  rw [hwdt]; exact renderDate_not_sentinel dt
                subst hiss
                simp only [normalise, hstrip, List.foldl_nil]
                rw [if_neg hns, if_neg horgn, if_neg hint, if_neg hnum, if_neg hfmt,
                  if_pos hdate, normalise_date_stable f.name f.name f.name f.name v w hdn]
              · rw [if_neg hdate] at h
                simp only [Except.ok.injEq, Prod.mk.injEq] at h
                obtain ⟨h1, -⟩ := h
                subst h1
                simp only [normalise, hstrip, List.foldl_nil]
                rw [if_neg hsent, if_neg horgn, if_neg hint, if_neg hnum, if_neg hfmt,
                  if_neg hdate]

/-- C9 amended-theorem witness: normalising an integer field's output
"7" (from input "7.0") again returns it unchanged. -/
theorem c9_amended_witness : normalise urlTrue [] countField "7" = Except.ok ("7", []) :=
  c9_amended urlTrue [] countField "7.0" "7" [] rfl (by rfl)
    (fun hc => absurd hc (by decide))
    (fun _ hint _ _ _ => absurd rfl hint)

end Harmonise
